import Mathlib

/-!
Verification of the arXiver affiliation-extraction scripts.

Shallow embedding of `finding_author_rem_8.py`, `pronshtest.py` and
`process_papers.py`. Python strings are modelled as `List Char` (ASCII
behaviour of `re`: `\w` is `[A-Za-z0-9_]`, `\s` is `[ \t\n\r\f\v]`, and
`str.lower`/`str.strip` act on ASCII). Python dicts are modelled as
association lists whose insert updates an existing key in place and
otherwise appends, matching insertion-order semantics. The deterministic
regular expressions used by the scripts are implemented as explicit
left-to-right scanners with the same match semantics (leftmost match,
greedy/lazy quantifiers with the backtracking behaviour they actually
exhibit on these patterns).
-/

set_option maxRecDepth 4000

namespace ArXiver

abbrev Str := List Char

/-- Convert a Lean string literal to the `List Char` model. -/
def SL (s : String) : Str := s.data

/-- Python `\s` for ASCII text. -/
def isWs (c : Char) : Bool :=
  c = ' ' || c = '\t' || c = '\n' || c = '\r' || c = '\x0b' || c = '\x0c'

def isAsciiAlpha (c : Char) : Bool :=
  ('a' ≤ c && c ≤ 'z') || ('A' ≤ c && c ≤ 'Z')

def isDigitC (c : Char) : Bool := '0' ≤ c && c ≤ '9'

/-- Python `\w` for ASCII text. -/
def isWordC (c : Char) : Bool := isAsciiAlpha c || isDigitC c || c = '_'

/-- `startsW needle hay`: `hay` begins with `needle`. -/
def startsW : Str → Str → Bool
  | [], _ => true
  | _ :: _, [] => false
  | a :: as, b :: bs => a = b && startsW as bs

/-- Leftmost index of a literal substring (Python `str.find`, as an `Option`). -/
def findSub (needle : Str) : Str → Option Nat
  | [] => if needle.isEmpty then some 0 else none
  | c :: rest =>
    if startsW needle (c :: rest) then some 0
    else (findSub needle rest).map (· + 1)

/-- Python `needle in hay` for strings. -/
def containsSub (needle hay : Str) : Bool := (findSub needle hay).isSome

/-- ASCII `str.lower()`. -/
def lowerL (s : Str) : Str := s.map Char.toLower

/-- `str.strip()` on ASCII whitespace. -/
def stripWsL (s : Str) : Str :=
  ((s.dropWhile isWs).reverse.dropWhile isWs).reverse

/-- `str.lstrip()` on ASCII whitespace. -/
def lstripWsL (s : Str) : Str := s.dropWhile isWs

/-- Python `str.split(sep)` for a one-character separator (keeps empty pieces). -/
def pySplitOn (sep : Char) : Str → List Str
  | [] => [[]]
  | c :: rest =>
    if c = sep then [] :: pySplitOn sep rest
    else match pySplitOn sep rest with
      | [] => [[c]]
      | p :: ps => (c :: p) :: ps

/-- Python `str.split()` (split on whitespace runs, no empty pieces). -/
def pySplitWsF : Nat → Str → List Str
  | 0, _ => []
  | fuel + 1, s =>
    match s.dropWhile isWs with
    | [] => []
    | c :: rest =>
      (c :: rest.takeWhile (fun d => !isWs d)) ::
        pySplitWsF fuel (rest.drop (rest.takeWhile (fun d => !isWs d)).length)

/-- Python `str.split()` (split on whitespace runs, no empty pieces). -/
def pySplitWs (s : Str) : List Str := pySplitWsF (s.length + 1) s

/-- `", ".join`-style joining. -/
def joinWith (sep : Str) : List Str → Str
  | [] => []
  | [x] => x
  | x :: y :: rest => x ++ sep ++ joinWith sep (y :: rest)

/-- Decimal rendering of a natural number (Python `str(n)`). -/
def natToStr (n : Nat) : Str := (Nat.toDigits 10 n)

/-!
Matcher infrastructure. A matcher tries a pattern at the start of a string
and returns the number of characters it consumes plus captured data. This
realises `re.search` / `re.finditer` / `re.sub` / `re.split` for the
deterministic patterns used by the scripts: `re.search` scans candidate
start positions left to right, `re.finditer` continues after each match,
and `re.sub` copies unmatched characters and never rescans a replacement.
-/

/-- `re.search`: leftmost match. Returns (start index, consumed length, data). -/
def searchM {α : Type} (m : Str → Option (Nat × α)) : Str → Option (Nat × Nat × α)
  | [] => (m []).map (fun p => (0, p.1, p.2))
  | c :: rest =>
    match m (c :: rest) with
    | some (n, a) => some (0, n, a)
    | none => (searchM m rest).map (fun p => (p.1 + 1, p.2.1, p.2.2))

/-- `re.finditer` (fuelled; every match here consumes at least one character). -/
def findAllMF {α : Type} (m : Str → Option (Nat × α)) : Nat → Str → List (Nat × Nat × α)
  | 0, _ => []
  | fuel + 1, s =>
    match searchM m s with
    | none => []
    | some (i, n, a) =>
      (i, n, a) ::
        (findAllMF m fuel (s.drop (i + n))).map (fun p => (i + n + p.1, p.2.1, p.2.2))

def findAllM {α : Type} (m : Str → Option (Nat × α)) (s : Str) : List (Nat × Nat × α) :=
  findAllMF m (s.length + 1) s

/-- `re.sub` (fuelled): the matcher's data is the replacement text. -/
def subMF (m : Str → Option (Nat × Str)) : Nat → Str → Str
  | 0, s => s
  | _ + 1, [] => []
  | fuel + 1, c :: rest =>
    match m (c :: rest) with
    | some (n, rep) => rep ++ subMF m fuel ((c :: rest).drop n)
    | none => c :: subMF m fuel rest

def subM (m : Str → Option (Nat × Str)) (s : Str) : Str := subMF m (s.length + 1) s

/-- `re.split` (fuelled) for delimiters that consume at least one character. -/
def splitMF (m : Str → Option (Nat × Unit)) : Nat → Str → List Str
  | 0, s => [s]
  | fuel + 1, s =>
    match searchM m s with
    | none => [s]
    | some (i, n, _) => s.take i :: splitMF m fuel (s.drop (i + n))

def splitM (m : Str → Option (Nat × Unit)) (s : Str) : List Str :=
  splitMF m (s.length + 1) s

/-- Matcher for a non-empty literal (Python `str.replace` / literal regexes). -/
def mLit (pat : Str) (rep : Str) (s : Str) : Option (Nat × Str) :=
  if !pat.isEmpty && startsW pat s then some (pat.length, rep) else none

/-- Python `str.replace(pat, rep)` for a non-empty `pat`. -/
def replaceAllL (pat rep : Str) (s : Str) : Str := subM (mLit pat rep) s

/-- Matcher replacing one character of a class (regex `[...]` → `rep`). -/
def mCharClass (p : Char → Bool) (rep : Str) (s : Str) : Option (Nat × Str) :=
  match s with
  | c :: _ => if p c then some (1, rep) else none
  | [] => none

/-- Matcher for a whitespace run (regex `\s+` → `rep`). -/
def mWsRun (rep : Str) (s : Str) : Option (Nat × Str) :=
  match s with
  | c :: _ =>
    if isWs c then some ((s.takeWhile isWs).length, rep) else none
  | [] => none

/-- Regex `\s+` → `' '`: collapse every whitespace run to a single space. -/
def collapseWs (s : Str) : Str := subM (mWsRun (SL " ")) s

/-- Matcher for regex `\cmd\{[^}]*\}` (literal command, one brace level). -/
def mCmdBraced (cmd : Str) (s : Str) : Option (Nat × Str) :=
  if startsW (('\\' :: cmd) ++ ['\x7b']) s then
    let rest := s.drop (cmd.length + 2)
    let inner := rest.takeWhile (· ≠ '\x7d')
    match rest.drop inner.length with
    | '\x7d' :: _ => some (cmd.length + 2 + inner.length + 1, [])
    | _ => none
  else none

/-- Matcher for regex `\\[a-zA-Z]+` (backslash then letters) with replacement. -/
def mCmdBare (rep : Str) (s : Str) : Option (Nat × Str) :=
  match s with
  | '\\' :: rest =>
    let letters := rest.takeWhile isAsciiAlpha
    if letters.isEmpty then none else some (1 + letters.length, rep)
  | _ => none

/-!
Superscript-label regexes `\$[\^]*\{?(C…)\}?\$` (with `C…` either `+` or `*`
over a character class). On these patterns the only backtracking the Python
engine performs is shrinking the greedy class run until `\}?\$` fits, so the
match is: maximal class run, then the largest give-back position whose suffix
starts with `}$` or `$`.
-/

/-- Greedy give-back: largest `k` with `minK ≤ k ≤` the start value whose
suffix `r2.drop k` starts with `}$` (2 chars) or `$` (1 char).
Returns `(k, extra consumed after the run)`. -/
def superGiveBack (r2 : Str) (minK : Nat) : Nat → Option (Nat × Nat)
  | 0 =>
    if minK = 0 then
      if startsW (SL "\x7d$") r2 then some (0, 2)
      else if startsW (SL "$") r2 then some (0, 1)
      else none
    else none
  | k + 1 =>
    if k + 1 < minK then none
    else if startsW (SL "\x7d$") (r2.drop (k + 1)) then some (k + 1, 2)
    else if startsW (SL "$") (r2.drop (k + 1)) then some (k + 1, 1)
    else superGiveBack r2 minK k

/-- Matcher for `\$[\^]*\{?(cls…)\}?\$`; `minK = 1` for `+`, `0` for `*`.
Data returned is group 1. -/
def mSuper (cls : Char → Bool) (minK : Nat) (s : Str) : Option (Nat × Str) :=
  match s with
  | '$' :: rest =>
    let carets := rest.takeWhile (· = '^')
    let r1 := rest.drop carets.length
    let braceN : Nat := match r1 with | '\x7b' :: _ => 1 | _ => 0
    let r2 := r1.drop braceN
    let run := r2.takeWhile cls
    match superGiveBack r2 minK run.length with
    | some (k, extra) =>
      some (1 + carets.length + braceN + k + extra, run.take k)
    | none => none
  | _ => none

/-- Class of `[\w, \-]` (word chars, comma, space, hyphen). -/
def cls1 (c : Char) : Bool := isWordC c || c = ',' || c = ' ' || c = '-'

/-- Class of `[\w, \-$\star\dagger]`: inside a class `\s` and `\d` are the
whitespace and digit classes and the rest are literals, so this is word
chars, whitespace, digits, comma, space, hyphen, dollar and the letters
of `tar`/`agger` (already word chars). -/
def clsStar (c : Char) : Bool :=
  isWordC c || isWs c || isDigitC c || c = ',' || c = ' ' || c = '-' || c = '$'

/-!
Balanced-brace extraction (`finding_author_rem_8.extract_balanced_content`
and `pronshtest.extract_braced_content`).
-/

/-- Matcher for `re.escape(token) + r'\s*\{'`. -/
def mTokenWsBrace (token : Str) (s : Str) : Option (Nat × Unit) :=
  if startsW token s then
    let rest := s.drop token.length
    let w := rest.takeWhile isWs
    match rest.drop w.length with
    | c :: _ => if c = '\x7b' then some (token.length + w.length + 1, ()) else none
    | [] => none
  else none

/-- The stack-counting scan of `extract_balanced_content` (depth `d` is the
Python `stack - 1`). Returns the content before the matching brace and the
remainder after it. -/
def scanStack : Nat → Str → Option (Str × Str)
  | _, [] => none
  | d, c :: rest =>
    if c = '\x7d' then
      match d with
      | 0 => some ([], rest)
      | d' + 1 => (scanStack d' rest).map (fun p => (c :: p.1, p.2))
    else if c = '\x7b' then
      (scanStack (d + 1) rest).map (fun p => (c :: p.1, p.2))
    else
      (scanStack d rest).map (fun p => (c :: p.1, p.2))

/-- `finding_author_rem_8.extract_balanced_content(text, start_token)`. -/
def extract_balanced_content (text : Str) (start_token : Str) : Option Str :=
  if text.isEmpty then none
  else
    match searchM (mTokenWsBrace start_token) text with
    | none => none
    | some (i, n, _) => (scanStack 0 (text.drop (i + n))).map (·.1)

/-- The escape-skipping scan of `pronshtest.extract_braced_content` (a `\`
skips the next character; `count` is depth `d + 1`). -/
def scanEsc : Nat → Str → Option (Str × Str)
  | _, [] => none
  | d, c :: rest =>
    if c = '\\' then
      match rest with
      | [] => none
      | e :: rest' => (scanEsc d rest').map (fun p => (c :: e :: p.1, p.2))
    else if c = '\x7d' then
      match d with
      | 0 => some ([], rest)
      | d' + 1 => (scanEsc d' rest).map (fun p => (c :: p.1, p.2))
    else if c = '\x7b' then
      (scanEsc (d + 1) rest).map (fun p => (c :: p.1, p.2))
    else
      (scanEsc d rest).map (fun p => (c :: p.1, p.2))

/-- `pronshtest.extract_braced_content(text, command)`. -/
def extract_braced_content (text : Str) (command : Str) : Option Str :=
  match findSub (command ++ ['\x7b']) text with
  | none => none
  | some i => (scanEsc 0 (text.drop (i + command.length + 1))).map (·.1)

/-- Number of occurrences of one character (the brace counting of C8). -/
def countC (c : Char) (s : Str) : Nat := (s.filter (· = c)).length

/-- Drop backslash-escaped characters from the counted stream: a `\`
removes itself and the character after it (both are skipped by
`pronshtest.extract_braced_content`). -/
def escStrip : Str → Str
  | [] => []
  | [c] => if c = '\\' then [] else [c]
  | c :: d :: rest => if c = '\\' then escStrip rest else c :: escStrip (d :: rest)

/-- Some prefix of `t` closes an already-open brace: it holds one more
closing than opening brace (plain counting). -/
def closesBrace (t : Str) : Prop :=
  ∃ n, n ≤ t.length ∧ countC '\x7d' (t.take n) = countC '\x7b' (t.take n) + 1

/-- The escape-skipping variant: braces are counted on the stripped stream. -/
def closesBraceEsc (t : Str) : Prop :=
  ∃ n, n ≤ t.length ∧
    countC '\x7d' (escStrip (t.take n)) = countC '\x7b' (escStrip (t.take n)) + 1

/-!
`finding_author_rem_8.clean_latex_text`. The iterated rewrite
`\\[a-zA-Z]+\{((?:[^{}]|\{[^{}]*\})*)\}` → `\1` is deterministic: the
group's units are consumed greedily and giving a unit back never produces
the required `}`, so a match is exactly "command, brace, units until a
closing brace at depth one".
-/

/-- Consume `(?:[^{}]|\{[^{}]*\})*` greedily; returns (consumed text, rest). -/
def scanUnitsF : Nat → Str → (Str × Str)
  | 0, s => ([], s)
  | _ + 1, [] => ([], [])
  | fuel + 1, c :: rest =>
    if c = '\x7d' then ([], c :: rest)
    else if c = '\x7b' then
      let inner := rest.takeWhile (fun d => d ≠ '\x7b' && d ≠ '\x7d')
      match rest.drop inner.length with
      | '\x7d' :: tail =>
        let p := scanUnitsF fuel tail
        ('\x7b' :: (inner ++ '\x7d' :: p.1), p.2)
      | _ => ([], c :: rest)
    else
      let p := scanUnitsF fuel rest
      (c :: p.1, p.2)

/-- Matcher for `\\[a-zA-Z]+\{((?:[^{}]|\{[^{}]*\})*)\}` with replacement `\1`. -/
def mCmdNested (s : Str) : Option (Nat × Str) :=
  match s with
  | '\\' :: rest =>
    let letters := rest.takeWhile isAsciiAlpha
    if letters.isEmpty then none
    else
      match rest.drop letters.length with
      | '\x7b' :: tail =>
        let p := scanUnitsF tail.length tail
        match p.2 with
        | '\x7d' :: _ => some (1 + letters.length + 1 + p.1.length + 1, p.1)
        | _ => none
      | _ => none
  | _ => none

/-- The `for _ in range(4)` fixpoint loop around the nested-command rewrite. -/
def cleanLoop : Nat → Str → Str
  | 0, s => s
  | n + 1, s =>
    let s' := subM mCmdNested s
    if s' = s then s else cleanLoop n s'

/-- Class of the final trim `^[\s,;.]+|[\s,;.]+$`. -/
def isEdgeC (c : Char) : Bool := isWs c || c = ',' || c = ';' || c = '.'

/-- `re.sub(r'^[\s,;.]+|[\s,;.]+$', '', s)`: strip the leading and trailing
runs of whitespace/comma/semicolon/dot (the regex `$` also matches before a
final newline, but a final newline is itself in the class). -/
def trimEdge (s : Str) : Str :=
  ((s.dropWhile isEdgeC).reverse.dropWhile isEdgeC).reverse

/-- `finding_author_rem_8.clean_latex_text`. -/
def clean_latex_text (text : Str) : Str :=
  if text.isEmpty then []
  else
    let t1 := subM (mCmdBraced (SL "email")) text
    let t2 := subM (mCmdBraced (SL "thanks")) t1
    let t3 := replaceAllL (SL "\\fnmsep") [] t2
    let t4 := subM (mCmdBraced (SL "vspace")) t3
    let t5 := subM (mCmdBraced (SL "corref")) t4
    let t6 := cleanLoop 4 t5
    let t7 := subM (mCmdBare (SL " ")) t6
    let t8 := subM (mCharClass (fun c => c = '\x7b' || c = '\x7d') (SL " ")) t7
    let t9 := replaceAllL (SL "\\\\") (SL ", ") t8
    let t10 := replaceAllL (SL "\\") (SL " ") t9
    let t11 := replaceAllL (SL "$") [] t10
    let t12 := replaceAllL (SL "~") (SL " ") t11
    let t13 := stripWsL (collapseWs t12)
    trimEdge t13

/-- `clean_latex_text` applied to a possibly-`None` argument
(`if not text: return ""` makes both falsy cases return the empty string). -/
def cleanOpt (o : Option Str) : Str := clean_latex_text (o.getD [])

/-- `finding_author_rem_8.extract_name_from_author`. -/
def extract_name_from_author (author_str : Str) : Str :=
  if author_str.isEmpty then []
  else
    let t1 := subM (mCmdBraced (SL "altaffilmark")) author_str
    let t2 := subM (mCmdBraced (SL "inst")) t1
    let t3 := subM (mCmdBraced (SL "orcidlink")) t2
    let t4 := subM (mCmdBraced (SL "footnote")) t3
    let t5 := subM (fun s => (mSuper clsStar 0 s).map (fun p => (p.1, []))) t4
    stripWsL (clean_latex_text t5)

def extractNameOpt (o : Option Str) : Str := extract_name_from_author (o.getD [])

/-!
`finding_author_rem_8.normalize_name` and `names_match`.
-/

/-- First alternative of a list of attempts (regex alternation). -/
def firstSome {α β : Type} (f : α → Option β) : List α → Option β
  | [] => none
  | x :: xs => match f x with | some y => some y | none => firstSome f xs

/-- After a title word: `\.?\s+` (greedy optional dot, then whitespace). -/
def tryTitleAfter (r : Str) : Option Str :=
  match r with
  | '.' :: r2 =>
    match r2 with
    | c :: _ => if isWs c then some (r2.dropWhile isWs) else none
    | [] => none
  | c :: _ => if isWs c then some (r.dropWhile isWs) else none
  | [] => none

def tryTitle (w : Str) (s : Str) : Option Str :=
  if startsW w s then tryTitleAfter (s.drop w.length) else none

/-- `re.sub(r'^(dr\.?|prof\.?|mr\.?|ms\.?|mrs\.?)\s+', '', s)`: anchored, so
at most the leading occurrence is removed; alternatives tried in order. -/
def titleStrip (s : Str) : Str :=
  (firstSome (fun w => tryTitle w s)
    [SL "dr", SL "prof", SL "mr", SL "ms", SL "mrs"]).getD s

/-- `$` of an unanchored Python pattern: end of string or before a final newline. -/
def atEndPy : Str → Bool
  | [] => true
  | ['\n'] => true
  | _ => false

/-- Matcher for `\s+(jr\.?|sr\.?|iii|ii|iv)$` (alternatives in regex order,
greedy optional dots). -/
def mSuffix (s : Str) : Option (Nat × Str) :=
  match s with
  | c :: _ =>
    if isWs c then
      let w := (s.takeWhile isWs).length
      let r := s.drop w
      match firstSome
          (fun a => if startsW a r && atEndPy (r.drop a.length) then some a.length else none)
          [SL "jr.", SL "jr", SL "sr.", SL "sr", SL "iii", SL "ii", SL "iv"] with
      | some n => some (w + n, [])
      | none => none
    else none
  | [] => none

/-- Class of `[.,;:\-\'"`]` (dot, comma, semicolon, colon, hyphen,
apostrophe, double quote, backtick). -/
def isNamePunct (c : Char) : Bool :=
  c = '.' || c = ',' || c = ';' || c = ':' || c = '-' || c = '\x27' || c = '"' || c = '\x60'

/-- `finding_author_rem_8.normalize_name`. -/
def normalize_name (name : Str) : Str :=
  if name.isEmpty then []
  else
    let n1 := lowerL name
    let n2 := titleStrip n1
    let n3 := subM mSuffix n2
    let n4 := subM (mCharClass isNamePunct (SL " ")) n3
    stripWsL (collapseWs n4)

/-- `finding_author_rem_8.names_match`. -/
def names_match (name1 name2 : Str) : Bool :=
  if name1.isEmpty || name2.isEmpty then false
  else
    let n1 := normalize_name name1
    let n2 := normalize_name name2
    if n1 = n2 then true
    else
      let parts1 := pySplitWs n1
      let parts2 := pySplitWs n2
      if parts1.isEmpty || parts2.isEmpty then false
      else if parts1.getLast? ≠ parts2.getLast? then false
      else if parts1.length = 1 || parts2.length = 1 then true
      else
        let initials1 := parts1.dropLast.filterMap List.head?
        let initials2 := parts2.dropLast.filterMap List.head?
        initials1.any (fun c => initials2.contains c)

/-!
Python dicts as insertion-ordered association lists: assignment updates an
existing key in place, otherwise appends.
-/

abbrev LMap := List (Str × Str)
abbrev AMap := List (Str × List Str)

def dinsert {α : Type} (k : Str) (v : α) : List (Str × α) → List (Str × α)
  | [] => [(k, v)]
  | (k', v') :: rest => if k' = k then (k, v) :: rest else (k', v') :: dinsert k v rest

def dlookup {α : Type} (k : Str) : List (Str × α) → Option α
  | [] => none
  | (k', v') :: rest => if k' = k then some v' else dlookup k rest

/-- `list(d.values())`. -/
def dvalues {α : Type} (m : List (Str × α)) : List α := m.map (·.2)

/-- Literal matcher without replacement data. -/
def mLitU (pat : Str) (s : Str) : Option (Nat × Unit) :=
  if !pat.isEmpty && startsW pat s then some (pat.length, ()) else none

/-!
The author chunk split `\\and|(?<!\{),(?![^}]*\})` (and its comma-only
variant): split on `\and`, or on a comma not directly preceded by `{` whose
remainder contains no `}` (the lookahead `[^}]*\}` succeeds exactly when a
`}` occurs later). The scanner carries the previous character for the
lookbehind.
-/

def splitAndCommaAux (useAnd : Bool) : Nat → Option Char → Str → Str → List Str
  | 0, _, acc, s => [acc.reverse ++ s]
  | _ + 1, _, acc, [] => [acc.reverse]
  | fuel + 1, prev, acc, c :: rest =>
    if useAnd && startsW (SL "\\and") (c :: rest) then
      acc.reverse :: splitAndCommaAux useAnd fuel (some 'd') [] ((c :: rest).drop 4)
    else if c = ',' && prev ≠ some '\x7b' && !(rest.contains '\x7d') then
      acc.reverse :: splitAndCommaAux useAnd fuel (some ',') [] rest
    else
      splitAndCommaAux useAnd fuel (some c) (c :: acc) rest

def splitAndComma (useAnd : Bool) (s : Str) : List Str :=
  splitAndCommaAux useAnd (s.length + 1) none [] s

/-- Matcher for `\\altaffilmark\{([^}]*)\}`. -/
def mAltaffilmark (s : Str) : Option (Nat × Str) :=
  if startsW (SL "\\altaffilmark\x7b") s then
    let rest := s.drop 14
    let inner := rest.takeWhile (· ≠ '\x7d')
    match rest.drop inner.length with
    | '\x7d' :: _ => some (14 + inner.length + 1, inner)
    | _ => none
  else none

/-- Matcher for `\\inst\{([\w, \-]+)\}`. -/
def mInstTag (s : Str) : Option (Nat × Str) :=
  if startsW (SL "\\inst\x7b") s then
    let rest := s.drop 6
    let run := rest.takeWhile cls1
    if run.isEmpty then none
    else
      match rest.drop run.length with
      | '\x7d' :: _ => some (6 + run.length + 1, run)
      | _ => none
  else none

/-!
`finding_author_rem_8.parse_parbox_style`.
-/

def parboxToken : Str := SL "\\parbox\x7b\\textwidth\x7d"

/-- Delimiter `\\\\|\\par` of the affiliation-block split. -/
def mParboxSplit (s : Str) : Option (Nat × Unit) :=
  if startsW (SL "\\\\") s then some (2, ())
  else if startsW (SL "\\par") s then some (4, ())
  else none

def affilKeywords : List Str :=
  [SL "university", SL "institute", SL "department", SL "school",
   SL "laboratory", SL "center", SL "observatory"]

/-- The block-identification loop (last assignment wins). -/
def parboxIdentify : List Str → Option Str × Option Str → Option Str × Option Str
  | [], st => st
  | content :: rest, (ab, aub) =>
    if (affilKeywords.any (fun kw => containsSub kw (lowerL content)))
        && containsSub (SL "\\\\") content then
      parboxIdentify rest (some content, aub)
    else if containsSub (SL "$^") content || containsSub (SL "\\thanks") content then
      parboxIdentify rest (ab, some content)
    else
      parboxIdentify rest (ab, aub)

/-- All parbox contents (non-empty extractions only: `if content:`),
guarded by the `len(parbox_matches) < 2` early return. -/
def parboxContents (sec : Str) : List Str :=
  let pbMatches := findAllM (mLitU parboxToken) sec
  if pbMatches.length < 2 then []
  else
    (pbMatches.filterMap
      (fun p => extract_balanced_content (sec.drop p.1) parboxToken)).filter
      (fun c => !c.isEmpty)

/-- Identified (affiliation block, author block), with the positional
fallback when no affiliation block was identified. -/
def parbox_blocks (sec : Str) : Option Str × Option Str :=
  let contents := parboxContents sec
  if contents.isEmpty then (none, none)
  else
    let idPair := parboxIdentify contents (none, none)
    match idPair.1 with
    | some ab => (some ab, idPair.2)
    | none =>
      if contents.length ≥ 2 then (contents.getLast?, contents.head?)
      else (none, idPair.2)

/-- Per-line label parsing of the affiliation block. -/
def parboxLabelFold : List Str → LMap → LMap
  | [], lm => lm
  | line :: rest, lm =>
    let l := stripWsL line
    if l.isEmpty then parboxLabelFold rest lm
    else
      match searchM (mSuper cls1 1) l with
      | some (i, n, g1) =>
        let g0 := (l.drop i).take n
        let label := stripWsL g1
        let affil := clean_latex_text (replaceAllL g0 [] l)
        if affil.isEmpty then parboxLabelFold rest lm
        else parboxLabelFold rest (dinsert label affil lm)
      | none => parboxLabelFold rest lm

/-- The parbox label map, built only when the style finds both blocks. -/
def parbox_label_map (sec : Str) : LMap :=
  match parbox_blocks sec with
  | (some ab, some _) => parboxLabelFold (splitM mParboxSplit ab) []
  | _ => []

/-- Superscript indices of one raw author string (skipping ORCIDs). -/
def parboxIndices (raw : Str) : List Str :=
  (findAllM (mSuper cls1 1) raw).foldl
    (fun acc p =>
      if containsSub (SL "orcid") (lowerL p.2.2) then acc
      else acc ++ (pySplitOn ',' p.2.2).map stripWsL) []

def parboxAuthorFold (lm : LMap) : List Str → AMap → AMap
  | [], m => m
  | raw :: rest, m =>
    if (stripWsL raw).isEmpty then parboxAuthorFold lm rest m
    else
      let name := extract_name_from_author raw
      if name.isEmpty then parboxAuthorFold lm rest m
      else
        let indices := parboxIndices raw
        if indices.isEmpty then parboxAuthorFold lm rest m
        else
          let affs := indices.filterMap (fun i => dlookup i lm)
          if affs.isEmpty then parboxAuthorFold lm rest m
          else parboxAuthorFold lm rest (dinsert name affs m)

def parse_parbox_style (sec : Str) : AMap :=
  match parbox_blocks sec with
  | (some _, some aub) =>
    let lm := parbox_label_map sec
    let cleaned := replaceAllL (SL "\\and") (SL "\n") aub
    let namesRaw0 := ((pySplitOn '\n' cleaned).map stripWsL).filter (fun l => !l.isEmpty)
    let namesRaw := if namesRaw0.length < 2 then splitAndComma false cleaned else namesRaw0
    parboxAuthorFold lm namesRaw []
  | _ => []

/-!
`finding_author_rem_8.parse_altaffil_style`.
-/

/-- The `\altaffiltext` label-collection loop, iterated over the start
positions of the literal occurrences of `\altaffiltext`. -/
def altaffilLabelFold (sec : Str) : List Nat → LMap → LMap
  | [], lm => lm
  | bs :: rest, lm =>
    match extract_balanced_content (sec.drop bs) (SL "\\altaffiltext") with
    | some label =>
      if label.isEmpty then altaffilLabelFold sec rest lm
      else
        let lms := '\x7b' :: (label ++ ['\x7d'])
        match findSub lms (sec.drop bs) with
        | none => altaffilLabelFold sec rest lm
        | some j =>
          let affilStart := bs + j + lms.length
          let tailS := lstripWsL (sec.drop affilStart)
          if startsW (SL "\x7b") tailS then
            match extract_balanced_content (SL "placeholder" ++ tailS) (SL "placeholder") with
            | some affil_content =>
              if affil_content.isEmpty then altaffilLabelFold sec rest lm
              else
                let clean_label :=
                  replaceAllL (SL "\\") [] (replaceAllL (SL "$") [] (stripWsL label))
                altaffilLabelFold sec rest
                  (dinsert clean_label (clean_latex_text affil_content) lm)
            | none => altaffilLabelFold sec rest lm
          else altaffilLabelFold sec rest lm
    | none => altaffilLabelFold sec rest lm

def altaffil_label_map (sec : Str) : LMap :=
  altaffilLabelFold sec ((findAllM (mLitU (SL "\\altaffiltext")) sec).map (·.1)) []

/-- `\altaffilmark` / superscript indices of one raw author chunk
(stripped, with `$` and `\` removed). -/
def altaffilIndices (raw : Str) : List Str :=
  let cleanPart := fun (q : Str) => replaceAllL (SL "\\") [] (replaceAllL (SL "$") [] (stripWsL q))
  ((findAllM mAltaffilmark raw).foldl
    (fun acc p => acc ++ (pySplitOn ',' p.2.2).map cleanPart) []) ++
  ((findAllM (mSuper clsStar 1) raw).foldl
    (fun acc p => acc ++ (pySplitOn ',' p.2.2).map cleanPart) [])

def altaffilPerAuthor (lm : LMap) : List Str → AMap → AMap
  | [], m => m
  | raw :: rest, m =>
    let indices := altaffilIndices raw
    let name := extract_name_from_author raw
    if name.isEmpty then altaffilPerAuthor lm rest m
    else
      let affs := indices.filterMap (fun i => dlookup i lm)
      if !affs.isEmpty then altaffilPerAuthor lm rest (dinsert name affs m)
      else if !lm.isEmpty && indices.isEmpty then
        if lm.length = 1 then altaffilPerAuthor lm rest (dinsert name (dvalues lm) m)
        else altaffilPerAuthor lm rest m
      else altaffilPerAuthor lm rest m

def altaffilAuthorFold (sec : Str) (lm : LMap) : List Nat → AMap → AMap
  | [], m => m
  | st :: rest, m =>
    match extract_balanced_content (sec.drop st) (SL "\\author") with
    | some content =>
      if content.isEmpty then altaffilAuthorFold sec lm rest m
      else altaffilAuthorFold sec lm rest (altaffilPerAuthor lm (splitAndComma true content) m)
    | none => altaffilAuthorFold sec lm rest m

def parse_altaffil_style (sec : Str) : AMap :=
  altaffilAuthorFold sec (altaffil_label_map sec)
    ((findAllM (mLitU (SL "\\author")) sec).map (·.1)) []

/-!
`finding_author_rem_8.parse_elsarticle_style`.
-/

/-- Matcher for `\\address\[([^\]]+)\]`. -/
def mAddr (s : Str) : Option (Nat × Str) :=
  if startsW (SL "\\address[") s then
    let rest := s.drop 9
    let run := rest.takeWhile (· ≠ ']')
    if run.isEmpty then none
    else
      match rest.drop run.length with
      | ']' :: _ => some (9 + run.length + 1, run)
      | _ => none
  else none

/-- Matcher for `\\author\[([^\]]+)\]`. -/
def mAuthorBr (s : Str) : Option (Nat × Str) :=
  if startsW (SL "\\author[") s then
    let rest := s.drop 8
    let run := rest.takeWhile (· ≠ ']')
    if run.isEmpty then none
    else
      match rest.drop run.length with
      | ']' :: _ => some (8 + run.length + 1, run)
      | _ => none
  else none

def elsarticleLabelFold (sec : Str) : List (Nat × Nat × Str) → LMap → LMap
  | [], lm => lm
  | (i, n, g1) :: rest, lm =>
    let label := stripWsL g1
    let affil := cleanOpt (extract_balanced_content (sec.drop (i + n - 2)) [])
    if !label.isEmpty && !affil.isEmpty then
      elsarticleLabelFold sec rest (dinsert label affil lm)
    else elsarticleLabelFold sec rest lm

def elsarticle_label_map (sec : Str) : LMap :=
  elsarticleLabelFold sec (findAllM mAddr sec) []

def elsarticleAuthorFold (sec : Str) (lm : LMap) : List (Nat × Nat × Str) → AMap → AMap
  | [], m => m
  | (i, n, g1) :: rest, m =>
    let name := extractNameOpt (extract_balanced_content (sec.drop (i + n - 2)) [])
    if name.isEmpty then elsarticleAuthorFold sec lm rest m
    else
      let labels := ((pySplitOn ',' g1).map stripWsL).filter (fun l => !l.isEmpty)
      let affs := labels.filterMap (fun l => dlookup l lm)
      if !affs.isEmpty then elsarticleAuthorFold sec lm rest (dinsert name affs m)
      else elsarticleAuthorFold sec lm rest m

def parse_elsarticle_style (sec : Str) : AMap :=
  elsarticleAuthorFold sec (elsarticle_label_map sec) (findAllM mAuthorBr sec) []

/-!
`finding_author_rem_8.parse_robust_mapping_style`.
-/

/-- Delimiter `\\and|\\\\|\\n\s*\n` of the affiliation-block split (the
third alternative is a literal backslash-`n`, then `\s*\n`, which matches
up to the last newline of the following whitespace run). -/
def mRobustSplit (s : Str) : Option (Nat × Unit) :=
  if startsW (SL "\\and") s then some (4, ())
  else if startsW (SL "\\\\") s then some (2, ())
  else if startsW (SL "\\n") s then
    let run := (s.drop 2).takeWhile isWs
    let tailNoNl := run.reverse.takeWhile (· ≠ '\n')
    if tailNoNl.length = run.length then none
    else some (2 + (run.length - tailNoNl.length), ())
  else none

/-- The `while str(next_idx) in label_map: next_idx += 1` loop. -/
def robustFreeIdx (lm : LMap) : Nat → Nat → Nat
  | 0, n => n
  | f + 1, n => if (dlookup (natToStr n) lm).isSome then robustFreeIdx lm f (n + 1) else n

def robustBlockFold : List Str → LMap → LMap
  | [], lm => lm
  | b :: rest, lm =>
    if (stripWsL b).isEmpty then robustBlockFold rest lm
    else
      match (match searchM (mSuper cls1 1) b with
             | some r => some r
             | none => searchM mInstTag b) with
      | some (i, n, g1) =>
        let g0 := (b.drop i).take n
        let label := stripWsL g1
        let affil := clean_latex_text (replaceAllL g0 [] b)
        if affil.isEmpty then robustBlockFold rest lm
        else robustBlockFold rest (dinsert label affil lm)
      | none =>
        let affil := clean_latex_text b
        if affil.isEmpty then robustBlockFold rest lm
        else robustBlockFold rest (dinsert (natToStr (robustFreeIdx lm (lm.length + 1) 1)) affil lm)

/-- The per-tag `while True: re.search ... search_idx += match.end()` loop. -/
def robustTagLoopF (tag : Str) : Nat → Str → LMap → LMap
  | 0, _, lm => lm
  | fuel + 1, s, lm =>
    match findSub tag s with
    | none => lm
    | some i =>
      let lm' :=
        match extract_balanced_content (s.drop i) tag with
        | some content =>
          if content.isEmpty then lm
          else robustBlockFold (splitM mRobustSplit content) lm
        | none => lm
      robustTagLoopF tag fuel (s.drop (i + tag.length)) lm'

def robust_label_map (sec : Str) : LMap :=
  robustTagLoopF (SL "\\institute") (sec.length + 1) sec
    (robustTagLoopF (SL "\\affiliation") (sec.length + 1) sec [])

/-- `\inst` / superscript indices of one raw author chunk. -/
def robustIndices (raw : Str) : List Str :=
  ((findAllM mInstTag raw).foldl
    (fun acc p => acc ++ (pySplitOn ',' p.2.2).map stripWsL) []) ++
  ((findAllM (mSuper cls1 1) raw).foldl
    (fun acc p => acc ++ (pySplitOn ',' p.2.2).map stripWsL) [])

def robustPerAuthor (lm : LMap) : List Str → AMap → AMap
  | [], m => m
  | raw :: rest, m =>
    let name := extract_name_from_author raw
    if name.isEmpty then robustPerAuthor lm rest m
    else
      let indices := robustIndices raw
      if !indices.isEmpty then
        let affs := indices.filterMap (fun i => dlookup i lm)
        if !affs.isEmpty then robustPerAuthor lm rest (dinsert name affs m)
        else robustPerAuthor lm rest m
      else if !lm.isEmpty then
        if lm.length = 1 then robustPerAuthor lm rest (dinsert name (dvalues lm) m)
        else
          match dlookup (SL "1") lm with
          | some v => robustPerAuthor lm rest (dinsert name [v] m)
          | none => robustPerAuthor lm rest m
      else robustPerAuthor lm rest m

def robustAuthorLoopF (lm : LMap) : Nat → Str → AMap → AMap
  | 0, _, m => m
  | fuel + 1, s, m =>
    match findSub (SL "\\author") s with
    | none => m
    | some i =>
      let m' :=
        match extract_balanced_content (s.drop i) (SL "\\author") with
        | some content =>
          if content.isEmpty then m
          else robustPerAuthor lm (splitAndComma true content) m
        | none => m
      robustAuthorLoopF lm fuel (s.drop (i + 7)) m'

def parse_robust_mapping_style (sec : Str) : AMap :=
  robustAuthorLoopF (robust_label_map sec) (sec.length + 1) sec []

/-- `finding_author_rem_8.parse_latex_section`: the four-style dispatcher. -/
def parse_latex_section (sec : Str) : AMap :=
  let res1 := parse_parbox_style sec
  if !res1.isEmpty then res1
  else
    let res2 := parse_altaffil_style sec
    if !res2.isEmpty then res2
    else
      let res3 := parse_elsarticle_style sec
      if !res3.isEmpty then res3
      else
        let res4 := parse_robust_mapping_style sec
        if !res4.isEmpty then res4
        else []

/-!
`finding_author_rem_8.parse_filtered_file`. The file content arrives as
`Option Str` (`none` models an unreadable file: the `try/except` returns
the empty dict). `re.split(r'(?=PAPER:)', content)` splits before every
occurrence of `PAPER:`. `current_title` is a `Str` whose emptiness plays
both falsy roles (`None` and `''`). Debug prints are modelled as a log of
emitted lines (their exact text is abbreviated; only their presence
matters).
-/

/-- Split before each occurrence of `needle` (zero-width lookahead split). -/
def splitBeforeAux (needle : Str) : Nat → Str → Str → List Str
  | 0, acc, s => [acc.reverse ++ s]
  | _ + 1, acc, [] => [acc.reverse]
  | fuel + 1, acc, c :: rest =>
    if startsW needle (c :: rest) then
      acc.reverse :: splitBeforeAux needle fuel [c] rest
    else
      splitBeforeAux needle fuel (c :: acc) rest

def splitBefore (needle : Str) (s : Str) : List Str :=
  splitBeforeAux needle (s.length + 1) [] s

/-- Backtracking of `\s*(.+?)` in `PAPER:\s*(.+?)(?:\n|$)`: the greedy
whitespace run is given back until `.` can match (a non-newline char),
and the lazy group then stops before the first newline (or at the end,
where `$` matches). -/
def titleDescend (tail : Str) : Nat → Option Str
  | 0 =>
    match tail with
    | [] => none
    | c :: r => if c = '\n' then none else some ((c :: r).takeWhile (· ≠ '\n'))
  | w + 1 =>
    match tail.drop (w + 1) with
    | [] => titleDescend tail w
    | c :: r => if c = '\n' then titleDescend tail w else some ((c :: r).takeWhile (· ≠ '\n'))

/-- Matcher for `PAPER:\s*(.+?)(?:\n|$)` (only the group is used). -/
def mPaperTitle (s : Str) : Option (Nat × Str) :=
  if startsW (SL "PAPER:") s then
    let tail := s.drop 6
    match titleDescend tail (tail.takeWhile isWs).length with
    | some g => some (6, g)
    | none => none
  else none

def debugTitleNeedle : Str := SL "rate of extreme coronal line emitters"

structure PFState where
  m : List (Str × AMap)
  ct : Str
  log : List Str
deriving Repr

/-- One iteration of the `for section in paper_sections` loop (with the
hardcoded-debug-title branch). -/
def pfStep (acc : PFState) (sec : Str) : PFState :=
  let ct1 :=
    match searchM mPaperTitle sec with
    | some (_, _, g) => stripWsL g
    | none => acc.ct
  if containsSub (SL "AFFILIATION SECTION:") sec
      || (!ct1.isEmpty && !containsSub (SL "ERROR:") sec) then
    if !ct1.isEmpty then
      let pr :=
        if containsSub debugTitleNeedle (lowerL ct1) then
          [SL "DEBUG: Processing section", SL "DEBUG: Resulting affils"]
        else []
      let author_affils := parse_latex_section sec
      let m' := if !author_affils.isEmpty then dinsert ct1 author_affils acc.m else acc.m
      { m := m', ct := [], log := acc.log ++ pr }
    else { acc with ct := ct1 }
  else { acc with ct := ct1 }

/-- `parse_filtered_file`, returning (paper→authors map, printed log). -/
def parse_filtered_file (readResult : Option Str) : List (Str × AMap) × List Str :=
  match readResult with
  | none => ([], [])
  | some content =>
    let pf := (splitBefore (SL "PAPER:") content).foldl pfStep ⟨[], [], []⟩
    (pf.m, pf.log)

/-- `pfStep` with the debug conditional removed (reference for C7). -/
def pfStepND (acc : List (Str × AMap) × Str) (sec : Str) : List (Str × AMap) × Str :=
  let ct1 :=
    match searchM mPaperTitle sec with
    | some (_, _, g) => stripWsL g
    | none => acc.2
  if containsSub (SL "AFFILIATION SECTION:") sec
      || (!ct1.isEmpty && !containsSub (SL "ERROR:") sec) then
    if !ct1.isEmpty then
      let author_affils := parse_latex_section sec
      (if !author_affils.isEmpty then dinsert ct1 author_affils acc.1 else acc.1, [])
    else (acc.1, ct1)
  else (acc.1, ct1)

def parse_filtered_file_nodebug (readResult : Option Str) : List (Str × AMap) :=
  match readResult with
  | none => []
  | some content =>
    ((splitBefore (SL "PAPER:") content).foldl pfStepND ([], [])).1

/-!
`finding_author_rem_8.match_author_to_affiliations` and the `main` fill
loop. The `preprocessed` table maps titles to word sets (modelled as
deduplicated lists: only size and membership are used) and parsed author
maps.
-/

structure PPEntry where
  words : List Str
  authors : AMap
deriving Repr

def commonWords : List Str :=
  [SL "the", SL "a", SL "an", SL "of", SL "in", SL "on", SL "for", SL "and",
   SL "with", SL "from", SL "to", SL "by", SL "its", SL "their", SL "using",
   SL "study", SL "new", SL "based"]

/-- `set(normalize_name(t).split()) - _common_words`. -/
def titleWords (t : Str) : List Str :=
  ((pySplitWs (normalize_name t)).dedup).filter (fun w => !commonWords.contains w)

/-- `len(a & b)` for the word sets (`a` deduplicated). -/
def setInterCount (a b : List Str) : Nat := (a.filter (fun x => b.contains x)).length

/-- Inner author loop: first matching author wins; the debug branch only
prints. -/
def authorScan (an : Str) (dbg : Bool) : AMap → Option (List Str) × List Str
  | [] => (none, [])
  | (la, affs) :: rest =>
    if names_match an la then (some affs, [])
    else
      let pr :=
        if dbg && containsSub (SL "callow") (lowerL an) then
          [SL "DEBUG MATCH FAIL", SL "Norm CSV", SL "Norm LATEX"]
        else []
      let p := authorScan an dbg rest
      (p.1, pr ++ p.2)

def matchScan (an : Str) (tw : List Str) (minOv : Nat) (dbg : Bool) :
    List (Str × PPEntry) → Option (List Str) × List Str
  | [] => (none, [])
  | (_, data) :: rest =>
    if minOv ≤ setInterCount tw data.words then
      match authorScan an dbg data.authors with
      | (some affs, log) => (some affs, log)
      | (none, log) =>
        let p := matchScan an tw minOv dbg rest
        (p.1, log ++ p.2)
    else matchScan an tw minOv dbg rest

/-- `match_author_to_affiliations`, returning (result, printed log). -/
def match_author_to_affiliations (author_name paper_title : Str)
    (preprocessed : List (Str × PPEntry)) : Option (List Str) × List Str :=
  let tw := titleWords paper_title
  if tw.isEmpty then (none, [])
  else
    matchScan author_name tw (min 3 tw.length)
      (containsSub (SL "rate of extreme coronal line") (lowerL paper_title)) preprocessed

/-- The debug-free reference version of the author scan (for C7). -/
def authorScanND (an : Str) : AMap → Option (List Str)
  | [] => none
  | (la, affs) :: rest => if names_match an la then some affs else authorScanND an rest

def matchScanND (an : Str) (tw : List Str) (minOv : Nat) :
    List (Str × PPEntry) → Option (List Str)
  | [] => none
  | (_, data) :: rest =>
    if minOv ≤ setInterCount tw data.words then
      match authorScanND an data.authors with
      | some affs => some affs
      | none => matchScanND an tw minOv rest
    else matchScanND an tw minOv rest

def match_author_nodebug (author_name paper_title : Str)
    (preprocessed : List (Str × PPEntry)) : Option (List Str) :=
  let tw := titleWords paper_title
  if tw.isEmpty then none
  else matchScanND author_name tw (min 3 tw.length) preprocessed

/-!
The per-row fill loop of `finding_author_rem_8.main`. A CSV row is
modelled by its parsed fields: `ast.literal_eval` failure is `.fail`
(caught by `except: continue` inside the loop, and making `is_missing`
true); an affiliations field that parses to a non-list is `.nonList`
(`is_missing` is then false, so the row is never touched). `extra`
carries every other column. (A row whose authors field parses to a
non-list while its affiliations are missing would crash the script
outside any handler; such rows are outside this model.)
-/

inductive AuthField where
  | fail
  | ok (xs : List Str)
deriving DecidableEq, Repr

inductive AffField where
  | fail
  | nonList
  | ok (xs : List (Option Str))
deriving DecidableEq, Repr

structure PRow where
  title : Str
  authorsF : AuthField
  affilsF : AffField
  extra : List Str
deriving DecidableEq, Repr

/-- The `is_missing` predicate selecting `missing_indices`. -/
def is_missing : AffField → Bool
  | .fail => true
  | .nonList => false
  | .ok xs => xs.any (fun a => a.isNone)

/-- Python truthiness of an affiliation slot (`if a:`). -/
def truthyA : Option Str → Bool
  | none => false
  | some s => !s.isEmpty

def joinSemi (l : List Str) : Str := joinWith (SL "; ") l

/-- `while len(affiliations) < len(authors): affiliations.append(None)`. -/
def padNone (affs : List (Option Str)) (n : Nat) : List (Option Str) :=
  affs ++ List.replicate (n - affs.length) none

/-- The `for i, (author, affil) in enumerate(zip(authors, affiliations))`
loop; `lookup` is `match_author_to_affiliations(·, title, preprocessed)`. -/
def fillLoop (lookup : Str → Str → Option (List Str)) (title : Str) :
    List Str → Nat → List (Option Str) → Bool → List (Option Str) × Bool
  | [], _, affs, ch => (affs, ch)
  | a :: as, i, affs, ch =>
    match affs[i]? with
    | none => (affs, ch)
    | some affil =>
      match affil with
      | some _ => fillLoop lookup title as (i + 1) affs ch
      | none =>
        let hit :=
          match lookup title a with
          | some new_affs => if new_affs.isEmpty then none else some new_affs
          | none => none
        match hit with
        | some new_affs =>
          fillLoop lookup title as (i + 1) (affs.set i (some (joinSemi new_affs))) true
        | none =>
          if containsSub (SL "collaboration") (lowerL a)
              || containsSub (SL "team") (lowerL a) then
            match (affs.filter truthyA).head? with
            | some v => fillLoop lookup title as (i + 1) (affs.set i v) true
            | none => fillLoop lookup title as (i + 1) affs ch
          else fillLoop lookup title as (i + 1) affs ch

/-- The shared-affiliation backfill after the loop. -/
def sharedFill (affs : List (Option Str)) (ch : Bool) : List (Option Str) × Bool :=
  let valid := affs.filter truthyA
  if affs.any (fun a => a.isNone) && valid.dedup.length = 1 then
    (affs.map (fun a => if a.isNone then (valid.head?).getD none else a), true)
  else (affs, ch)

/-- The whole body after a successful parse of one missing row. -/
def fillRowResult (lookup : Str → Str → Option (List Str)) (title : Str)
    (authors : List Str) (affs0 : List (Option Str)) : List (Option Str) × Bool :=
  let p := fillLoop lookup title authors 0 (padNone affs0 authors.length) false
  sharedFill p.1 p.2

/-- Effect of the fill loop on one row (`if changed:` writes back). -/
def rowStep (lookup : Str → Str → Option (List Str)) (row : PRow) : PRow :=
  if !is_missing row.affilsF then row
  else
    match row.authorsF, row.affilsF with
    | .ok authors, .ok affs0 =>
      let p := fillRowResult lookup row.title authors affs0
      if p.2 then { row with affilsF := .ok p.1 } else row
    | _, _ => row

/-- The whole fill pass (each missing row is updated independently, so the
loop over `missing_indices` is a per-row map). -/
def fillAll (lookup : Str → Str → Option (List Str)) (df : List PRow) : List PRow :=
  df.map (rowStep lookup)

/-!
`process_papers.py`: its own `clean_latex_text` (named `clean_latex_text_pp`
here), title extraction, and the three parsing strategies of
`parse_paper_block`.
-/

/-- `re.sub(r'%.*$', '', text, flags=re.MULTILINE)`: truncate each line at
its first `%`. -/
def stripComments (s : Str) : Str :=
  joinWith (SL "\n") ((pySplitOn '\n' s).map (fun line => line.takeWhile (· ≠ '%')))

/-- Matcher for `\\cmd(?:\[[^\]]*\])?\{.*?\}` (DOTALL) with replacement `''`.
If the optional bracket group fails or the braces never close, the whole
attempt fails (giving the bracket back cannot produce `{`). -/
def mCmdOptBr (cmd : Str) (s : Str) : Option (Nat × Str) :=
  if startsW ('\\' :: cmd) s then
    let r := s.drop (1 + cmd.length)
    let br : Nat × Str :=
      match r with
      | '[' :: rr =>
        let inner := rr.takeWhile (· ≠ ']')
        match rr.drop inner.length with
        | ']' :: _ => (inner.length + 2, rr.drop (inner.length + 1))
        | _ => (0, r)
      | _ => (0, r)
    match br.2 with
    | '\x7b' :: rr2 =>
      let body := rr2.takeWhile (· ≠ '\x7d')
      match rr2.drop body.length with
      | '\x7d' :: _ => some (1 + cmd.length + br.1 + 1 + body.length + 1, [])
      | _ => none
    | _ => none
  else none

def ppCmds : List Str :=
  [SL "orcidlink", SL "orcid", SL "thanks", SL "email", SL "corref",
   SL "cortext", SL "fnref", SL "tnoteref", SL "inst", SL "label",
   SL "altaffiliation", SL "altaffilmark", SL "affil", SL "titlerunning",
   SL "authorrunning", SL "emailAdd", SL "href", SL "url"]

/-- The literal `str.replace` table (insertion order; the last key is the
literal eight-character string `\s*\\\s*`, exactly as in the source). -/
def ppReplacements : List (Str × Str) :=
  [ (SL "\\\x27e", SL "é"), (SL "\\`e", SL "è"), (SL "\\^e", SL "ê"), (SL "\\\"e", SL "ë"),
    (SL "\\\x27a", SL "á"), (SL "\\`a", SL "à"), (SL "\\^a", SL "â"), (SL "\\\"a", SL "ä"),
    (SL "\\\x27o", SL "ó"), (SL "\\`o", SL "ò"), (SL "\\^o", SL "ô"), (SL "\\\"o", SL "ö"),
    (SL "\\\x27u", SL "ú"), (SL "\\`u", SL "ù"), (SL "\\^u", SL "û"), (SL "\\\"u", SL "ü"),
    (SL "\\\x27i", SL "í"), (SL "\\`i", SL "ì"), (SL "\\^i", SL "î"), (SL "\\\"i", SL "ï"),
    (SL "\\c\x7bc\x7d", SL "ç"), (SL "\\c\x7bs\x7d", SL "ş"), (SL "\\c\x7bC\x7d", SL "Ç"),
    (SL "\\c\x7bg\x7d", SL "ğ"), (SL "\\u\x7bg\x7d", SL "ğ"),
    (SL "\\~n", SL "ñ"), (SL "\\~o", SL "õ"),
    (SL "\\&", SL "&"), (SL "\\_", SL "_"),
    (SL "\\ ", SL " "), (SL "\\,", SL " "), (SL "\\;", SL " "),
    (SL "\x27\x27", SL "\""), (SL "``", SL "\""),
    (SL "\\s*\\\\\\s*", SL " ") ]

/-- Matcher for `\[[^\]]*\]` with replacement `''`. -/
def mBracketed (s : Str) : Option (Nat × Str) :=
  match s with
  | '[' :: rest =>
    let inner := rest.takeWhile (· ≠ ']')
    match rest.drop inner.length with
    | ']' :: _ => some (1 + inner.length + 1, [])
    | _ => none
  | _ => none

/-- Matcher for `\s*\^\s*\d+\s*` with replacement `''`. -/
def mSuperscriptNum (s : Str) : Option (Nat × Str) :=
  let w1 := s.takeWhile isWs
  match s.drop w1.length with
  | '^' :: r1 =>
    let w2 := r1.takeWhile isWs
    let r2 := r1.drop w2.length
    let ds := r2.takeWhile isDigitC
    if ds.isEmpty then none
    else
      let w3 := (r2.drop ds.length).takeWhile isWs
      some (w1.length + 1 + w2.length + ds.length + w3.length, [])
  | _ => none

/-- `process_papers.clean_latex_text`. -/
def clean_latex_text_pp (text : Str) : Str :=
  if text.isEmpty then []
  else
    let t1 := stripComments text
    let t2 := ppCmds.foldl (fun t cmd => subM (mCmdOptBr cmd) t) t1
    let t3 := ppReplacements.foldl (fun t p => replaceAllL p.1 p.2 t) t2
    let t4 := subM (mCmdBare []) t3
    let t5 := subM (mCharClass (fun c => c = '$' || c = '\x7b' || c = '\x7d') []) t4
    let t6 := subM mBracketed t5
    let t7 := subM mSuperscriptNum t6
    stripWsL (joinWith (SL " ") (pySplitWs t7))

/-- One parsed author entry of `parse_paper_block`. -/
structure AEntry where
  name : Str
  affiliations : List Str
deriving DecidableEq, Repr

/-- Matcher for `\\title(?:\[[^\]]*\])?\s*\{(.*?)\}` (DOTALL). -/
def mTitleBrace (s : Str) : Option (Nat × Str) :=
  if startsW (SL "\\title") s then
    let r := s.drop 6
    let br : Nat × Str :=
      match r with
      | '[' :: rr =>
        let inner := rr.takeWhile (· ≠ ']')
        match rr.drop inner.length with
        | ']' :: _ => (inner.length + 2, rr.drop (inner.length + 1))
        | _ => (0, r)
      | _ => (0, r)
    let w := br.2.takeWhile isWs
    match br.2.drop w.length with
    | '\x7b' :: rr2 =>
      let body := rr2.takeWhile (· ≠ '\x7d')
      match rr2.drop body.length with
      | '\x7d' :: _ => some (6 + br.1 + w.length + 1 + body.length + 1, body)
      | _ => none
    | _ => none
  else none

/-- Matcher for the fallback `\\title\s+(.*)` (no DOTALL: `.` stops at a
newline). -/
def mTitleLine (s : Str) : Option (Nat × Str) :=
  if startsW (SL "\\title") s then
    let r := s.drop 6
    let w := r.takeWhile isWs
    if w.isEmpty then none
    else
      let body := (r.drop w.length).takeWhile (· ≠ '\n')
      some (6 + w.length + body.length, body)
  else none

/-- Title extraction of `parse_paper_block` (the fallback group contains no
newline, so `.split('\n')[0]` is the group itself). -/
def extractTitle (pc : Str) : Str :=
  match searchM mTitleBrace pc with
  | some (_, _, g) => clean_latex_text_pp g
  | none =>
    match searchM mTitleLine pc with
    | some (_, _, g) => clean_latex_text_pp g
    | none => []

/-- `\label{inst(\d+)}` followed by the pattern's closing `\}`. -/
def instLabelAt (r : Str) : Option (Nat × Str) :=
  if startsW (SL "\\label\x7binst") r then
    let r1 := r.drop 11
    let ds := r1.takeWhile isDigitC
    if ds.isEmpty then none
    else
      match r1.drop ds.length with
      | '\x7d' :: '\x7d' :: _ => some (11 + ds.length + 2, ds)
      | _ => none
  else none

/-- The suffix `\s*(?:\\label\{inst(\d+)\})?\}` of the institute pattern. -/
def instSfx (q : Str) : Option (Nat × Option Str) :=
  let w := q.takeWhile isWs
  let r := q.drop w.length
  match instLabelAt r with
  | some (n, ds) => some (w.length + n, some ds)
  | none =>
    match r with
    | '\x7d' :: _ => some (w.length + 1, none)
    | _ => none

/-- Lazy `(.*?)` scan: smallest content length whose suffix matches. -/
def instituteScan : Nat → Str → Option (Nat × Nat × Option Str)
  | 0, _ => none
  | fuel + 1, q =>
    match instSfx q with
    | some (n, g2) => some (0, n, g2)
    | none =>
      match q with
      | [] => none
      | _ :: rest => (instituteScan fuel rest).map (fun p => (p.1 + 1, p.2.1, p.2.2))

/-- Matcher for `\\institute\{(.*?)\s*(?:\\label\{inst(\d+)\})?\}` (DOTALL);
data is (group 1, group 2 with `''` for an unmatched group, as `findall`
returns). -/
def mInstitute (s : Str) : Option (Nat × (Str × Str)) :=
  if startsW (SL "\\institute\x7b") s then
    let tail := s.drop 11
    match instituteScan (tail.length + 1) tail with
    | some (k, n, g2) => some (11 + k + n, (tail.take k, g2.getD []))
    | none => none
  else none

def instStopLits : List Str :=
  [SL "\\institute", SL "\\date", SL "\\abstract", SL "\\maketitle"]

def instAltScan : Nat → Str → Option Nat
  | 0, _ => none
  | fuel + 1, q =>
    if instStopLits.any (fun l => startsW l q) then some 0
    else
      match q with
      | [] => none
      | _ :: rest => (instAltScan fuel rest).map (· + 1)

/-- Matcher for `\\institute(.*?)(?=\\institute|\\date|\\abstract|\\maketitle)`. -/
def mInstituteAlt (s : Str) : Option (Nat × Str) :=
  if startsW (SL "\\institute") s then
    let tail := s.drop 10
    match instAltScan (tail.length + 1) tail with
    | some k => some (10 + k, tail.take k)
    | none => none
  else none

/-- Strategy-1 label map from the primary `findall` (enumerate with
`label = inst_label if inst_label else str(i+1)`). -/
def s1MapA : Nat → List (Str × Str) → LMap → LMap
  | _, [], lm => lm
  | i, (txt, lab) :: rest, lm =>
    let label := if lab.isEmpty then natToStr (i + 1) else lab
    s1MapA (i + 1) rest (dinsert label (clean_latex_text_pp txt) lm)

/-- Strategy-1 label map from the fallback `findall` (per-line cleaning). -/
def s1MapB : Nat → List Str → LMap → LMap
  | _, [], lm => lm
  | i, block :: rest, lm =>
    let lines := ((pySplitOn '\n' (stripWsL block)).map stripWsL).filter (fun l => !l.isEmpty)
    s1MapB (i + 1) rest
      (dinsert (natToStr (i + 1)) (joinWith (SL " ") (lines.map clean_latex_text_pp)) lm)

/-- Matcher for `\\author\{(.*?)\}` (DOTALL). -/
def mAuthorLazy (s : Str) : Option (Nat × Str) :=
  if startsW (SL "\\author\x7b") s then
    let r := s.drop 8
    let body := r.takeWhile (· ≠ '\x7d')
    match r.drop body.length with
    | '\x7d' :: _ => some (8 + body.length + 1, body)
    | _ => none
  else none

/-- Delimiter `\s*\\and\s*`. -/
def mAndSplit (s : Str) : Option (Nat × Unit) :=
  let w := s.takeWhile isWs
  let r := s.drop w.length
  if startsW (SL "\\and") r then
    some (w.length + 4 + ((r.drop 4).takeWhile isWs).length, ())
  else none

/-- Group 2 of the per-chunk `re.search(r'^(.*?)(?:\\inst\{([^}]+)\})?', …)`:
the lazy group matches empty at position 0, so group 1 is always `''` and
group 2 is set exactly when the chunk starts with `\inst{…}`. -/
def s1NameMatch (chunk : Str) : Option Str :=
  match chunk with
  | '\\' :: 'i' :: 'n' :: 's' :: 't' :: '\x7b' :: rest =>
    let inner := rest.takeWhile (· ≠ '\x7d')
    if inner.isEmpty then none
    else
      match rest.drop inner.length with
      | '\x7d' :: _ => some inner
      | _ => none
  | _ => none

/-- Strategy 1: aa-style `\author{…\inst{…}}` with `\institute{…}`. -/
def strategy1 (pc : Str) : List AEntry :=
  if containsSub (SL "\\inst") pc && containsSub (SL "\\institute") pc then
    let insts := (findAllM mInstitute pc).map (·.2.2)
    let am :=
      if insts.isEmpty then s1MapB 0 ((findAllM mInstituteAlt pc).map (·.2.2)) []
      else s1MapA 0 insts []
    match searchM mAuthorLazy pc with
    | some (_, _, content) =>
      (splitM mAndSplit content).map (fun chunk =>
        { name := clean_latex_text_pp [],
          affiliations :=
            match s1NameMatch (stripWsL chunk) with
            | some tags =>
              (pySplitOn ',' (tags.filter (· ≠ ' '))).map
                (fun tag => (dlookup tag am).getD
                  (SL "Unresolved Inst(" ++ tag ++ SL ")"))
            | none => [] })
    | none => []
  else []

/-- Generic `\\cmd(?:\[[^\]]*\])?\{(.*?)\}` capturing the brace body. -/
def mCmdOptBrCap (cmd : Str) (s : Str) : Option (Nat × Str) :=
  if startsW ('\\' :: cmd) s then
    let r := s.drop (1 + cmd.length)
    let br : Nat × Str :=
      match r with
      | '[' :: rr =>
        let inner := rr.takeWhile (· ≠ ']')
        match rr.drop inner.length with
        | ']' :: _ => (inner.length + 2, rr.drop (inner.length + 1))
        | _ => (0, r)
      | _ => (0, r)
    match br.2 with
    | '\x7b' :: rr2 =>
      let body := rr2.takeWhile (· ≠ '\x7d')
      match rr2.drop body.length with
      | '\x7d' :: _ => some (1 + cmd.length + br.1 + 1 + body.length + 1, body)
      | _ => none
    | _ => none
  else none

/-- The strategy-2 alternation `\\author…{(.*?)}|\\affiliation…{(.*?)}`. -/
def mS2 (s : Str) : Option (Nat × Sum Str Str) :=
  match mCmdOptBrCap (SL "author") s with
  | some (n, b) => some (n, Sum.inl b)
  | none =>
    match mCmdOptBrCap (SL "affiliation") s with
    | some (n, b) => some (n, Sum.inr b)
    | none => none

/-- The sequential author/affiliation fold of strategy 2 (empty groups are
falsy and are skipped). -/
def s2Fold : List (Sum Str Str) → Option AEntry → List AEntry → List AEntry
  | [], cur, acc => acc ++ (match cur with | some e => [e] | none => [])
  | Sum.inl c :: rest, cur, acc =>
    if c.isEmpty then s2Fold rest cur acc
    else
      s2Fold rest (some { name := clean_latex_text_pp c, affiliations := [] })
        (acc ++ (match cur with | some e => [e] | none => []))
  | Sum.inr c :: rest, cur, acc =>
    match cur with
    | some e =>
      if c.isEmpty then s2Fold rest (some e) acc
      else s2Fold rest (some { e with affiliations := e.affiliations ++ [clean_latex_text_pp c] }) acc
    | none => s2Fold rest none acc

/-- Strategy 2: revtex/aastex sequential `\author` / `\affiliation`. -/
def strategy2 (pc : Str) : List AEntry :=
  s2Fold ((findAllM mS2 pc).map (·.2.2)) none []

/-- Matcher for `\\author\[[^\]]*\]\{(.*?)\}|\\author\{(.*?)\}`. The data is
Python's `content = group(1) or group(2)`: `none` when the first alternative
matches with an empty group 1 (group 2 is then absent, so `content` is the
Python `None` and the script's following `in` test raises a `TypeError`). -/
def mS3AuthorBlock (s : Str) : Option (Nat × Option Str) :=
  let alt1 :=
    if startsW (SL "\\author[") s then
      let rr := s.drop 8
      let inner := rr.takeWhile (· ≠ ']')
      match rr.drop inner.length with
      | ']' :: '\x7b' :: r3 =>
        let body := r3.takeWhile (· ≠ '\x7d')
        match r3.drop body.length with
        | '\x7d' :: _ => some (8 + inner.length + 2 + body.length + 1, body)
        | _ => none
      | _ => none
    else none
  match alt1 with
  | some (n, body) => some (n, if body.isEmpty then none else some body)
  | none =>
    if startsW (SL "\\author\x7b") s then
      let r := s.drop 8
      let body := r.takeWhile (· ≠ '\x7d')
      match r.drop body.length with
      | '\x7d' :: _ => some (8 + body.length + 1, some body)
      | _ => none
    else none

/-- Matcher for `\$\^\{(\d+)\}`. -/
def mDollarCaretDigits (s : Str) : Option (Nat × Str) :=
  if startsW (SL "$^\x7b") s then
    let ds := (s.drop 3).takeWhile isDigitC
    if ds.isEmpty then none
    else
      match (s.drop 3).drop ds.length with
      | '\x7d' :: _ => some (3 + ds.length + 1, ds)
      | _ => none
  else none

/-- Matcher for `\$\^\{[^\}]*\}` with replacement `''`. -/
def mDollarCaretAny (s : Str) : Option (Nat × Str) :=
  if startsW (SL "$^\x7b") s then
    let body := (s.drop 3).takeWhile (· ≠ '\x7d')
    match (s.drop 3).drop body.length with
    | '\x7d' :: _ => some (3 + body.length + 1, [])
    | _ => none
  else none

/-- Lazy scan for the lookahead `(?=\$\^\{\d+\}|$)`. -/
def s3AffilScan : Nat → Str → Option Nat
  | 0, _ => none
  | fuel + 1, q =>
    if (mDollarCaretDigits q).isSome || atEndPy q then some 0
    else
      match q with
      | [] => none
      | _ :: rest => (s3AffilScan fuel rest).map (· + 1)

/-- Matcher for `\$\^\{(\d+)\}(.*?)(?=\$\^\{\d+\}|$)` (DOTALL). -/
def mS3Affil (s : Str) : Option (Nat × (Str × Str)) :=
  match mDollarCaretDigits s with
  | some (n, ds) =>
    let tail := s.drop n
    match s3AffilScan (tail.length + 1) tail with
    | some k => some (n + k, (ds, tail.take k))
    | none => none
  | none => none

def s3AffilMap (affil_lines : Str) : LMap :=
  (findAllM mS3Affil affil_lines).foldl
    (fun lm p => dinsert p.2.2.1 (clean_latex_text_pp p.2.2.2) lm) []

/-- Delimiter `,|\s*\\and\s*|\s*\\newauthor\s*`. -/
def mS3NameSplit (s : Str) : Option (Nat × Unit) :=
  match s with
  | ',' :: _ => some (1, ())
  | _ =>
    let w := s.takeWhile isWs
    let r := s.drop w.length
    if startsW (SL "\\and") r then
      some (w.length + 4 + ((r.drop 4).takeWhile isWs).length, ())
    else if startsW (SL "\\newauthor") r then
      some (w.length + 10 + ((r.drop 10).takeWhile isWs).length, ())
    else none

/-- Strategy 3: mnras/spie single author block with numbered affiliations.
`none` models the `TypeError` the script raises when `content` is the
Python `None` (see `mS3AuthorBlock`). -/
def strategy3 (pc : Str) : Option (List AEntry) :=
  match searchM mS3AuthorBlock pc with
  | none => some []
  | some (_, _, none) => none
  | some (_, _, some content) =>
    if containsSub (SL "\\\\") content && (searchM mDollarCaretDigits content).isSome then
      match findSub (SL "\\\\") content with
      | some ix =>
        let author_lines := content.take ix
        let affil_lines := content.drop (ix + 2)
        let am := s3AffilMap affil_lines
        some (((splitM mS3NameSplit author_lines).filter
            (fun c => !(stripWsL c).isEmpty)).filterMap (fun chunk =>
          let nums := (findAllM mDollarCaretDigits chunk).map (·.2.2)
          let name := clean_latex_text_pp (subM mDollarCaretAny chunk)
          if name.isEmpty then none
          else
            some { name := name,
                   affiliations := nums.map (fun num => (dlookup num am).getD
                     (SL "Unresolved Affil(" ++ num ++ SL ")")) }))
      | none => some []
    else some []

/-- `process_papers.parse_paper_block`: title plus first-non-empty strategy
(strategy 3 also covers the final `return title, authors_data`, which
returns strategy 3's list whether or not it is empty). `none` is the
`TypeError` escaping from strategy 3. -/
def parse_paper_block (pc : Str) : Option (Str × List AEntry) :=
  let title := extractTitle pc
  let s1 := strategy1 pc
  if !s1.isEmpty then some (title, s1)
  else
    let s2 := strategy2 pc
    if !s2.isEmpty then some (title, s2)
    else (strategy3 pc).map (fun s3 => (title, s3))

/-!
Theorems.
-/

/-- Spec-side formulation: the first non-empty mapping in a list. -/
def firstNonEmptyMap : List AMap → AMap
  | [] => []
  | m :: ms => if !m.isEmpty then m else firstNonEmptyMap ms

/-- Spec-side formulation: the first non-empty entry list in a list. -/
def firstNonEmptyEntries : List (List AEntry) → List AEntry
  | [] => []
  | l :: ls => if !l.isEmpty then l else firstNonEmptyEntries ls

/-- C1 (amended): `parse_latex_section` tries parbox, altaffil, elsarticle
and robust-mapping in that fixed order and returns, unchanged, the first
non-empty mapping (the empty mapping if all are empty). `parse_paper_block`
implements the same first-non-empty dispatch over its three strategies
whenever strategy 3 does not raise; when strategies 1 and 2 are empty and
strategy 3 hits its `group(1) or group(2)` `TypeError`, the exception
propagates and no mapping is returned. -/
theorem parse_latex_section_first_nonempty_dispatch (sec pc : Str) :
    (parse_latex_section sec =
      firstNonEmptyMap [parse_parbox_style sec, parse_altaffil_style sec,
        parse_elsarticle_style sec, parse_robust_mapping_style sec]) ∧
    (∀ s3, strategy3 pc = some s3 →
      (parse_paper_block pc).map Prod.snd =
        some (firstNonEmptyEntries [strategy1 pc, strategy2 pc, s3])) ∧
    (strategy3 pc = none → (strategy1 pc).isEmpty = true →
      (strategy2 pc).isEmpty = true → parse_paper_block pc = none) := by
  refine ⟨rfl, ?_, ?_⟩
  · intro s3 hs3
    simp only [parse_paper_block, firstNonEmptyEntries]
    by_cases h1 : (!(strategy1 pc).isEmpty) = true
    · rw [if_pos h1, if_pos h1]
      simp
    · rw [if_neg h1, if_neg h1]
      by_cases h2 : (!(strategy2 pc).isEmpty) = true
      · rw [if_pos h2, if_pos h2]
        simp
      · rw [if_neg h2, if_neg h2]
        rw [hs3]
        cases s3 <;> simp [firstNonEmptyEntries]
  · intro hn h1 h2
    simp only [parse_paper_block]
    have hb1 : ¬((!(strategy1 pc).isEmpty) = true) := by simp [h1]
    have hb2 : ¬((!(strategy2 pc).isEmpty) = true) := by simp [h2]
    rw [if_neg hb1, if_neg hb2, hn]
    rfl

theorem parse_latex_section_first_nonempty_dispatch_witness :
    (parse_paper_block (SL "\\author\x7bAn\x7d")).map Prod.snd =
      some (firstNonEmptyEntries [strategy1 (SL "\\author\x7bAn\x7d"),
        strategy2 (SL "\\author\x7bAn\x7d"), []]) :=
  (parse_latex_section_first_nonempty_dispatch [] (SL "\\author\x7bAn\x7d")).2.1 []
    (by decide)

/-- C1 counterexample: on `\author[x]\x7b\x7d` strategies 1 and 2 find no
authors and strategy 3 computes `content = group(1) or group(2) = None`, so
`parse_paper_block` raises a `TypeError` (modelled `none`) instead of
returning a dispatched mapping. -/
theorem parse_paper_block_crash_counterexample :
    strategy1 (SL "\\author[x]\x7b\x7d") = [] ∧
    strategy2 (SL "\\author[x]\x7b\x7d") = [] ∧
    strategy3 (SL "\\author[x]\x7b\x7d") = none ∧
    parse_paper_block (SL "\\author[x]\x7b\x7d") = none :=
  ⟨by decide, by decide, by decide, by decide⟩

lemma any_contains_comm (a b : List Char) :
    a.any (fun c => b.contains c) = b.any (fun c => a.contains c) := by
  apply Bool.eq_iff_iff.mpr
  simp only [List.any_eq_true, List.contains, List.elem_iff]
  exact ⟨fun ⟨c, h1, h2⟩ => ⟨c, h2, h1⟩, fun ⟨c, h1, h2⟩ => ⟨c, h2, h1⟩⟩

/-- C9: `names_match` is symmetric. -/
theorem names_match_symmetric (n1 n2 : Str) : names_match n1 n2 = names_match n2 n1 := by
  unfold names_match
  by_cases h1 : n1.isEmpty <;> by_cases h2 : n2.isEmpty <;>
    simp only [h1, h2, Bool.or_true, Bool.true_or, Bool.or_false, Bool.false_or,
      if_true, if_false]
  by_cases hm : normalize_name n1 = normalize_name n2
  · rw [if_pos hm, if_pos hm.symm]
  · have hm' : ¬ (normalize_name n2 = normalize_name n1) := fun h => hm h.symm
    rw [if_neg hm, if_neg hm']
    by_cases hp1 : (pySplitWs (normalize_name n1)).isEmpty <;>
      by_cases hp2 : (pySplitWs (normalize_name n2)).isEmpty <;>
        simp only [hp1, hp2, Bool.or_true, Bool.true_or, Bool.or_false, Bool.false_or,
          if_true, if_false]
    by_cases hl : (pySplitWs (normalize_name n1)).getLast? = (pySplitWs (normalize_name n2)).getLast?
    · rw [if_neg (not_not_intro hl), if_neg (not_not_intro hl.symm)]
      by_cases hq1 : (pySplitWs (normalize_name n1)).length = 1 <;>
        by_cases hq2 : (pySplitWs (normalize_name n2)).length = 1
      · simp [hq1, hq2]
      · simp [hq1]
      · simp [hq2]
      · have hb1 : ¬ ((decide ((pySplitWs (normalize_name n1)).length = 1)
            || decide ((pySplitWs (normalize_name n2)).length = 1)) = true) := by
          simp [hq1, hq2]
        have hb2 : ¬ ((decide ((pySplitWs (normalize_name n2)).length = 1)
            || decide ((pySplitWs (normalize_name n1)).length = 1)) = true) := by
          simp [hq1, hq2]
        rw [if_neg hb1, if_neg hb2]
        exact any_contains_comm _ _
    · rw [if_pos hl, if_pos (fun h => hl h.symm)]

/-- C2: `names_match` returns true exactly when the normalized names are
identical, or their last whitespace-separated tokens agree and either some
normalized name is a single token or the first characters of the non-last
tokens overlap; empty inputs give false. -/
theorem names_match_characterisation :
    (∀ n1 n2 : Str, n1 = [] ∨ n2 = [] → names_match n1 n2 = false) ∧
    (∀ n1 n2 : Str, n1 ≠ [] → n2 ≠ [] →
      (names_match n1 n2 = true ↔
        (normalize_name n1 = normalize_name n2 ∨
          (pySplitWs (normalize_name n1) ≠ [] ∧ pySplitWs (normalize_name n2) ≠ [] ∧
           (pySplitWs (normalize_name n1)).getLast? = (pySplitWs (normalize_name n2)).getLast? ∧
           ((pySplitWs (normalize_name n1)).length = 1 ∨
            (pySplitWs (normalize_name n2)).length = 1 ∨
            ∃ c, c ∈ (pySplitWs (normalize_name n1)).dropLast.filterMap List.head? ∧
                 c ∈ (pySplitWs (normalize_name n2)).dropLast.filterMap List.head?))))) := by
  constructor
  · intro n1 n2 h
    unfold names_match
    rcases h with h | h <;> simp [h]
  · intro n1 n2 h1 h2
    unfold names_match
    have e1 : n1.isEmpty = false := by simpa using h1
    have e2 : n2.isEmpty = false := by simpa using h2
    simp only [e1, e2, Bool.or_self, Bool.false_eq_true, if_false]
    by_cases hm : normalize_name n1 = normalize_name n2
    · simp [hm]
    · rw [if_neg hm]
      by_cases hp1 : pySplitWs (normalize_name n1) = []
      · simp [hp1, hm]
      · by_cases hp2 : pySplitWs (normalize_name n2) = []
        · simp [hp1, hp2, hm]
        · have ep1 : (pySplitWs (normalize_name n1)).isEmpty = false := by simpa using hp1
          have ep2 : (pySplitWs (normalize_name n2)).isEmpty = false := by simpa using hp2
          simp only [ep1, ep2, Bool.or_self, Bool.false_eq_true, if_false]
          by_cases hl : (pySplitWs (normalize_name n1)).getLast? = (pySplitWs (normalize_name n2)).getLast?
          · rw [if_neg (not_not_intro hl)]
            by_cases hq1 : (pySplitWs (normalize_name n1)).length = 1
            · simp [hq1, hp1, hp2, hl, hm]
            · by_cases hq2 : (pySplitWs (normalize_name n2)).length = 1
              · simp [hq1, hq2, hp1, hp2, hl, hm]
              · have hb : ¬ ((decide ((pySplitWs (normalize_name n1)).length = 1)
                    || decide ((pySplitWs (normalize_name n2)).length = 1)) = true) := by
                  simp [hq1, hq2]
                rw [if_neg hb]
                simp only [List.any_eq_true, List.contains, List.elem_iff]
                constructor
                · rintro ⟨c, hc1, hc2⟩
                  exact Or.inr ⟨hp1, hp2, hl, Or.inr (Or.inr ⟨c, hc1, hc2⟩)⟩
                · rintro (h | ⟨_, _, _, (h | h | ⟨c, hc1, hc2⟩)⟩)
                  · exact absurd h hm
                  · exact absurd h hq1
                  · exact absurd h hq2
                  · exact ⟨c, hc1, hc2⟩
          · rw [if_pos hl]
            simp only [Bool.false_eq_true, false_iff]
            rintro (h | ⟨_, _, hle, _⟩)
            · exact hm h
            · exact hl hle

/-- Witness for C2 at concrete names. -/
theorem names_match_characterisation_witness :
    (SL "Jo Smith" ≠ [] ∧ SL "J. Smith" ≠ []) ∧
    (names_match (SL "Jo Smith") (SL "J. Smith") = true ↔
      (normalize_name (SL "Jo Smith") = normalize_name (SL "J. Smith") ∨
        (pySplitWs (normalize_name (SL "Jo Smith")) ≠ [] ∧
         pySplitWs (normalize_name (SL "J. Smith")) ≠ [] ∧
         (pySplitWs (normalize_name (SL "Jo Smith"))).getLast? =
           (pySplitWs (normalize_name (SL "J. Smith"))).getLast? ∧
         ((pySplitWs (normalize_name (SL "Jo Smith"))).length = 1 ∨
          (pySplitWs (normalize_name (SL "J. Smith"))).length = 1 ∨
          ∃ c, c ∈ (pySplitWs (normalize_name (SL "Jo Smith"))).dropLast.filterMap List.head? ∧
               c ∈ (pySplitWs (normalize_name (SL "J. Smith"))).dropLast.filterMap List.head?)))) :=
  ⟨⟨by decide, by decide⟩,
    names_match_characterisation.2 (SL "Jo Smith") (SL "J. Smith") (by decide) (by decide)⟩

/-- C5: an unreadable input file makes `parse_filtered_file` return the
empty mapping, and the fill loop leaves any row whose authors or
affiliations field fails to parse exactly as it was. -/
theorem errors_swallowed_rows_skipped :
    (parse_filtered_file none).1 = [] ∧
    (∀ lookup row, row.authorsF = AuthField.fail → rowStep lookup row = row) ∧
    (∀ lookup row, row.affilsF = AffField.fail → rowStep lookup row = row) := by
  refine ⟨rfl, ?_, ?_⟩
  · intro lookup row h
    rcases row with ⟨t, aF, fF, ex⟩
    cases h
    cases fF with
    | fail => rfl
    | nonList => rfl
    | ok xs =>
      unfold rowStep
      by_cases hm : is_missing (AffField.ok xs) <;> simp [hm]
  · intro lookup row h
    rcases row with ⟨t, aF, fF, ex⟩
    cases h
    cases aF <;> rfl

/-- Witness for C5 at a concrete unparsable row. -/
theorem errors_swallowed_rows_skipped_witness :
    rowStep (fun _ _ => none) ⟨SL "t", AuthField.fail, AffField.fail, [SL "x"]⟩ =
      ⟨SL "t", AuthField.fail, AffField.fail, [SL "x"]⟩ :=
  errors_swallowed_rows_skipped.2.1 (fun _ _ => none) _ rfl

lemma fillLoop_length (lookup : Str → Str → Option (List Str)) (title : Str) :
    ∀ as i affs ch, ((fillLoop lookup title as i affs ch).1).length = affs.length := by
  intro as
  induction as with
  | nil => intro i affs ch; rfl
  | cons a rest ih =>
    intro i affs ch
    unfold fillLoop
    cases hg : affs[i]? with
    | none => rfl
    | some affil =>
      cases affil with
      | some v => simpa using ih (i + 1) affs ch
      | none =>
        cases hk : (match lookup title a with
          | some new_affs => if new_affs.isEmpty then none else some new_affs
          | none => none) with
        | some new_affs => simpa using ih (i + 1) (affs.set i (some (joinSemi new_affs))) true
        | none =>
          by_cases hcol : containsSub (SL "collaboration") (lowerL a)
              || containsSub (SL "team") (lowerL a)
          · cases hv : (affs.filter truthyA).head? with
            | some v =>
              simp only [hcol, hk, hv, if_true]
              simpa using ih (i + 1) (affs.set i v) true
            | none =>
              simp only [hcol, hk, hv, if_true]
              simpa using ih (i + 1) affs ch
          · simp only [hcol, hk, Bool.false_eq_true, if_false]
            simpa using ih (i + 1) affs ch

lemma sharedFill_length (affs : List (Option Str)) (ch : Bool) :
    ((sharedFill affs ch).1).length = affs.length := by
  unfold sharedFill
  by_cases h : affs.any (fun a => a.isNone) && (affs.filter truthyA).dedup.length = 1 <;>
    simp [h]

/-- C3: for a row whose parsed affiliation list is not longer than its
author list, the affiliation list produced by the fill loop (written back
when a change is recorded) has exactly one slot per author. -/
theorem fill_written_length (lookup : Str → Str → Option (List Str)) (title : Str)
    (authors : List Str) (affs0 : List (Option Str))
    (hle : affs0.length ≤ authors.length)
    (hch : (fillRowResult lookup title authors affs0).2 = true) :
    (fillRowResult lookup title authors affs0).1.length = authors.length := by
  unfold fillRowResult
  rw [sharedFill_length, fillLoop_length]
  simp only [padNone, List.length_append, List.length_replicate]
  omega

/-- Witness for C3 at a concrete row that records a change. -/
theorem fill_written_length_witness :
    ([some (SL "X"), none] : List (Option Str)).length ≤ ([SL "A", SL "B Team"] : List Str).length ∧
    (fillRowResult (fun _ _ => none) (SL "t") [SL "A", SL "B Team"] [some (SL "X"), none]).2 = true ∧
    (fillRowResult (fun _ _ => none) (SL "t") [SL "A", SL "B Team"] [some (SL "X"), none]).1.length =
      ([SL "A", SL "B Team"] : List Str).length :=
  ⟨by decide, by decide,
    fill_written_length (fun _ _ => none) (SL "t") [SL "A", SL "B Team"] [some (SL "X"), none]
      (by decide) (by decide)⟩

/-- C4: a fill run maps every row of the dataframe (the CSV is rewritten
wholesale), and any row whose affiliations parse to a list with no `None`
slot is outside `missing_indices` and reappears unchanged in the output. -/
theorem complete_rows_untouched (lookup : Str → Str → Option (List Str)) (df : List PRow) :
    (fillAll lookup df).length = df.length ∧
    (∀ (i : Nat) (row : PRow) (l : List (Option Str)), df[i]? = some row →
      row.affilsF = AffField.ok l →
      l.all (fun x => x.isSome) = true → (fillAll lookup df)[i]? = some row) := by
  constructor
  · simp [fillAll]
  · intro i row l hget haff hall
    have hmap : (fillAll lookup df)[i]? = (df[i]?).map (rowStep lookup) := by
      simp [fillAll]
    rw [hmap, hget]
    have hrow : rowStep lookup row = row := by
      rcases row with ⟨t, aF, fF, ex⟩
      cases haff
      have hm : is_missing (AffField.ok l) = false := by
        simp only [is_missing, List.any_eq_false]
        intro x hx
        have hs := List.all_eq_true.mp hall x hx
        simp [Option.isNone, Option.isSome] at hs ⊢
        cases x with
        | none => cases hs
        | some v => rfl
      unfold rowStep
      simp [hm]
    simp [hrow]

/-- Witness for C4 at a concrete one-row dataframe. -/
theorem complete_rows_untouched_witness :
    ([(⟨SL "t", AuthField.ok [SL "A"], AffField.ok [some (SL "U")], []⟩ : PRow)][0]? =
      some ⟨SL "t", AuthField.ok [SL "A"], AffField.ok [some (SL "U")], []⟩) ∧
    (fillAll (fun _ _ => some [SL "V"])
        [⟨SL "t", AuthField.ok [SL "A"], AffField.ok [some (SL "U")], []⟩])[0]? =
      some ⟨SL "t", AuthField.ok [SL "A"], AffField.ok [some (SL "U")], []⟩ :=
  ⟨by decide,
    (complete_rows_untouched (fun _ _ => some [SL "V"])
        [⟨SL "t", AuthField.ok [SL "A"], AffField.ok [some (SL "U")], []⟩]).2
      0 _ [some (SL "U")] (by decide) rfl (by decide)⟩

lemma authorScan_fst (an : Str) (dbg : Bool) :
    ∀ m : AMap, (authorScan an dbg m).1 = authorScanND an m := by
  intro m
  induction m with
  | nil => rfl
  | cons kv rest ih =>
    rcases kv with ⟨la, affs⟩
    unfold authorScan authorScanND
    by_cases h : names_match an la <;> simp [h, ih]

lemma matchScan_fst (an : Str) (tw : List Str) (minOv : Nat) (dbg : Bool) :
    ∀ pre : List (Str × PPEntry),
      (matchScan an tw minOv dbg pre).1 = matchScanND an tw minOv pre := by
  intro pre
  induction pre with
  | nil => rfl
  | cons td rest ih =>
    rcases td with ⟨t, data⟩
    unfold matchScan matchScanND
    by_cases hov : minOv ≤ setInterCount tw data.words
    · rw [if_pos hov, if_pos hov]
      rcases hsc : authorScan an dbg data.authors with ⟨r, log⟩
      have hr : authorScanND an data.authors = r := by
        rw [← authorScan_fst an dbg data.authors, hsc]
      cases r with
      | some affs => simp [hsc, hr]
      | none => simp [hsc, hr, ih]
    · rw [if_neg hov, if_neg hov]
      exact ih

lemma pfStep_agree (acc : PFState) (s : Str) :
    (pfStep acc s).m = (pfStepND (acc.m, acc.ct) s).1 ∧
    (pfStep acc s).ct = (pfStepND (acc.m, acc.ct) s).2 := by
  unfold pfStep pfStepND
  by_cases hc : containsSub (SL "AFFILIATION SECTION:") s
      || (!(match searchM mPaperTitle s with
            | some (_, _, g) => stripWsL g
            | none => acc.ct).isEmpty && !containsSub (SL "ERROR:") s)
  · rw [if_pos hc, if_pos hc]
    by_cases ht : (match searchM mPaperTitle s with
        | some (_, _, g) => stripWsL g
        | none => acc.ct).isEmpty
    · simp [ht]
    · simp [ht]
  · rw [if_neg hc, if_neg hc]
    exact ⟨rfl, rfl⟩

lemma pf_fold_agree :
    ∀ (secs : List Str) (acc : PFState),
      (secs.foldl pfStep acc).m = (secs.foldl pfStepND (acc.m, acc.ct)).1 := by
  intro secs
  induction secs with
  | nil => intro acc; rfl
  | cons s rest ih =>
    intro acc
    rw [List.foldl_cons, List.foldl_cons]
    have hpair : pfStepND (acc.m, acc.ct) s = ((pfStep acc s).m, (pfStep acc s).ct) := by
      have h := pfStep_agree acc s
      exact Prod.ext h.1.symm h.2.symm
    rw [hpair]
    exact ih (pfStep acc s)

/-- C7: the hardcoded debug titles only print: `parse_filtered_file` and
`match_author_to_affiliations` compute the same results as their
debug-free counterparts on every input. -/
theorem debug_branches_only_print :
    (∀ content : Option Str,
      (parse_filtered_file content).1 = parse_filtered_file_nodebug content) ∧
    (∀ (an t : Str) (pre : List (Str × PPEntry)),
      (match_author_to_affiliations an t pre).1 = match_author_nodebug an t pre) := by
  constructor
  · intro content
    cases content with
    | none => rfl
    | some c =>
      unfold parse_filtered_file parse_filtered_file_nodebug
      exact pf_fold_agree (splitBefore (SL "PAPER:") c) ⟨[], [], []⟩
  · intro an t pre
    unfold match_author_to_affiliations match_author_nodebug
    by_cases h : (titleWords t).isEmpty
    · simp [h]
    · simp only [h, Bool.false_eq_true, if_false]
      exact matchScan_fst an (titleWords t) (min 3 (titleWords t).length) _ pre

lemma startsW_iff : ∀ (n h : Str), startsW n h = true ↔ ∃ t, h = n ++ t := by
  intro n
  induction n with
  | nil => intro h; simp [startsW]
  | cons a as ih =>
    intro h
    cases h with
    | nil =>
      simp only [startsW, List.cons_append, Bool.false_eq_true, false_iff, not_exists]
      intro t ht
      cases ht
    | cons b bs =>
      simp only [startsW, Bool.and_eq_true, decide_eq_true_eq, ih]
      constructor
      · rintro ⟨hab, t, ht⟩
        exact ⟨t, by rw [List.cons_append, ← hab, ht]⟩
      · rintro ⟨t, ht⟩
        rw [List.cons_append] at ht
        injection ht with h1 h2
        exact ⟨h1.symm, t, h2⟩

lemma findSub_some (n : Str) :
    ∀ (h : Str) i, findSub n h = some i →
      ∃ t, h.drop i = n ++ t ∧ h.drop (i + n.length) = t := by
  intro h
  induction h with
  | nil =>
    intro i hi
    unfold findSub at hi
    by_cases hn : n.isEmpty
    · have hn' : n = [] := by simpa using hn
      rw [if_pos hn] at hi
      injection hi with h0
      subst h0
      exact ⟨[], by simp [hn']⟩
    · rw [if_neg hn] at hi
      cases hi
  | cons c rest ih =>
    intro i hi
    unfold findSub at hi
    by_cases hs : startsW n (c :: rest)
    · rw [if_pos hs] at hi
      injection hi with h0
      subst h0
      obtain ⟨t, ht⟩ := (startsW_iff n (c :: rest)).mp hs
      refine ⟨t, by simpa using ht, ?_⟩
      rw [Nat.zero_add, ht]
      exact List.drop_left n t
    · rw [if_neg hs] at hi
      cases hj : findSub n rest with
      | none => rw [hj] at hi; cases hi
      | some j =>
        rw [hj] at hi
        injection hi with h0
        subst h0
        obtain ⟨t, ht1, ht2⟩ := ih j hj
        exact ⟨t, by simpa using ht1, by simpa [Nat.add_right_comm] using ht2⟩

lemma scanEsc_decomp :
    ∀ (n : Nat) (u : Str), u.length ≤ n →
      ∀ d c r, scanEsc d u = some (c, r) → u = c ++ '\x7d' :: r := by
  intro n
  induction n with
  | zero =>
    intro u hu d c r h
    have : u = [] := List.eq_nil_of_length_eq_zero (Nat.le_zero.mp hu)
    subst this
    cases h
  | succ n ih =>
    intro u hu d c r h
    cases u with
    | nil => cases h
    | cons a rest =>
      unfold scanEsc at h
      by_cases h1 : a = '\\'
      · rw [if_pos h1] at h
        cases rest with
        | nil => cases h
        | cons e rest' =>
          have h' : Option.map (fun p => (a :: e :: p.1, p.2)) (scanEsc d rest') = some (c, r) := h
          cases hrec : scanEsc d rest' with
          | none => rw [hrec] at h'; cases h'
          | some pr =>
            rw [hrec] at h'
            injection h' with h0
            rcases pr with ⟨c', r'⟩
            simp only [Prod.mk.injEq] at h0
            have hu' : rest'.length ≤ n := by simp at hu; omega
            have := ih rest' hu' d c' r' hrec
            rw [← h0.1, ← h0.2, this, h1]
            simp
      · rw [if_neg h1] at h
        by_cases h2 : a = '\x7d'
        · rw [if_pos h2] at h
          cases d with
          | zero =>
            injection h with h0
            injection h0 with hc hr
            rw [← hc, ← hr, h2]
            simp
          | succ d' =>
            have h' : Option.map (fun p => (a :: p.1, p.2)) (scanEsc d' rest) = some (c, r) := h
            cases hrec : scanEsc d' rest with
            | none => rw [hrec] at h'; cases h'
            | some pr =>
              rw [hrec] at h'
              injection h' with h0
              rcases pr with ⟨c', r'⟩
              simp only [Prod.mk.injEq] at h0
              have hu' : rest.length ≤ n := by simp at hu; omega
              have := ih rest hu' d' c' r' hrec
              rw [← h0.1, ← h0.2, this]
              simp
        · rw [if_neg h2] at h
          have step : ∀ d2, (scanEsc d2 rest).map (fun p => (a :: p.1, p.2)) = some (c, r) →
              a :: rest = c ++ '\x7d' :: r := by
            intro d2 hmap
            cases hrec : scanEsc d2 rest with
            | none => rw [hrec] at hmap; cases hmap
            | some pr =>
              rw [hrec] at hmap
              injection hmap with h0
              rcases pr with ⟨c', r'⟩
              simp only [Prod.mk.injEq] at h0
              have hu' : rest.length ≤ n := by simp at hu; omega
              have := ih rest hu' d2 c' r' hrec
              rw [← h0.1, ← h0.2, this]
              simp
          by_cases h3 : a = '\x7b'
          · rw [if_pos h3] at h
            exact step (d + 1) h
          · rw [if_neg h3] at h
            exact step d h

lemma scanStack_decomp :
    ∀ (u : Str) (d : Nat) (c r : Str), scanStack d u = some (c, r) → u = c ++ '\x7d' :: r := by
  intro u
  induction u with
  | nil => intro d c r h; cases h
  | cons a rest ih =>
    intro d c r h
    unfold scanStack at h
    have step : ∀ d2, (scanStack d2 rest).map (fun p => (a :: p.1, p.2)) = some (c, r) →
        a :: rest = c ++ '\x7d' :: r := by
      intro d2 hmap
      cases hrec : scanStack d2 rest with
      | none => rw [hrec] at hmap; cases hmap
      | some pr =>
        rw [hrec] at hmap
        injection hmap with h0
        rcases pr with ⟨c', r'⟩
        simp only [Prod.mk.injEq] at h0
        have := ih d2 c' r' hrec
        rw [← h0.1, ← h0.2, this]
        simp
    by_cases h2 : a = '\x7d'
    · rw [if_pos h2] at h
      cases d with
      | zero =>
        injection h with h0
        injection h0 with hc hr
        rw [← hc, ← hr, h2]
        simp
      | succ d' => exact step d' h
    · rw [if_neg h2] at h
      by_cases h3 : a = '\x7b'
      · rw [if_pos h3] at h
        exact step (d + 1) h
      · rw [if_neg h3] at h
        exact step d h

lemma searchM_some {α : Type} (m : Str → Option (Nat × α)) :
    ∀ (s : Str) i n a, searchM m s = some (i, n, a) → m (s.drop i) = some (n, a) := by
  intro s
  induction s with
  | nil =>
    intro i n a h
    unfold searchM at h
    cases hm : m [] with
    | none => rw [hm] at h; cases h
    | some p =>
      rw [hm] at h
      injection h with h0
      rcases p with ⟨n', a'⟩
      injection h0 with h1 h2
      injection h2 with h2 h3
      subst h1; subst h2; subst h3
      simpa using hm
  | cons ch rest ih =>
    intro i n a h
    unfold searchM at h
    cases hm : m (ch :: rest) with
    | none =>
      rw [hm] at h
      cases hs : searchM m rest with
      | none => rw [hs] at h; cases h
      | some p =>
        rw [hs] at h
        injection h with h0
        rcases p with ⟨i', n', a'⟩
        injection h0 with h1 h2
        injection h2 with h2 h3
        rw [← h1, ← h2, ← h3]
        simpa using ih i' n' a' hs
    | some p =>
      rw [hm] at h
      rcases p with ⟨n', a'⟩
      injection h with h0
      injection h0 with h1 h2
      injection h2 with h2 h3
      subst h1; subst h2; subst h3
      simpa using hm

lemma drop_length_takeWhile (p : Char → Bool) :
    ∀ l : Str, l.drop (l.takeWhile p).length = l.dropWhile p := by
  intro l
  induction l with
  | nil => rfl
  | cons c rest ih =>
    by_cases h : p c <;> simp [List.takeWhile_cons, List.dropWhile_cons, h, ih]

lemma mTokenWsBrace_some (tok s : Str) (n : Nat) (u : Unit) :
    mTokenWsBrace tok s = some (n, u) →
      ∃ w t, (∀ c ∈ w, isWs c = true) ∧ s = tok ++ (w ++ '\x7b' :: t) ∧ s.drop n = t := by
  intro h
  unfold mTokenWsBrace at h
  by_cases hs : startsW tok s
  · rw [if_pos hs] at h
    simp only [] at h
    obtain ⟨rest0, hrest0⟩ := (startsW_iff tok s).mp hs
    have hrest : s.drop tok.length = rest0 := by
      rw [hrest0]; exact List.drop_left tok rest0
    rw [hrest] at h
    cases hd : rest0.drop (rest0.takeWhile isWs).length with
    | nil => rw [hd] at h; cases h
    | cons b bs =>
      rw [hd] at h
      have h' : (if b = '\x7b'
          then some (tok.length + (rest0.takeWhile isWs).length + 1, ())
          else none) = some (n, u) := h
      by_cases hb : b = '\x7b'
      · rw [if_pos hb] at h'
        injection h' with h0
        have hn : tok.length + (rest0.takeWhile isWs).length + 1 = n :=
          congrArg Prod.fst h0
        have hsplit : rest0.takeWhile isWs ++ rest0.dropWhile isWs = rest0 :=
          List.takeWhile_append_dropWhile isWs rest0
        have hdw : rest0.dropWhile isWs = '\x7b' :: bs := by
          rw [← drop_length_takeWhile isWs rest0, hd, hb]
        have hr2 : rest0 = rest0.takeWhile isWs ++ '\x7b' :: bs := by
          conv_lhs => rw [← hsplit, hdw]
        have hbs : rest0.drop ((rest0.takeWhile isWs).length + 1) = bs := by
          rw [← List.drop_drop, hd]
          rfl
        refine ⟨rest0.takeWhile isWs, bs, fun c hc => List.mem_takeWhile_imp hc, ?_, ?_⟩
        · rw [hrest0]
          exact congrArg (fun x => tok ++ x) hr2
        · rw [hrest0,
            show n = tok.length + ((rest0.takeWhile isWs).length + 1) by omega,
            ← List.drop_drop, List.drop_left]
          exact hbs
      · rw [if_neg hb] at h'
        cases h'
  · rw [if_neg hs] at h
    cases h

lemma countC_cons_self (x : Char) (l : Str) : countC x (x :: l) = countC x l + 1 := by
  simp [countC, List.filter_cons]

lemma countC_cons_ne (x a : Char) (l : Str) (h : a ≠ x) : countC x (a :: l) = countC x l := by
  simp [countC, List.filter_cons, h]

lemma escStrip_esc (e : Char) (l : Str) : escStrip ('\\' :: e :: l) = escStrip l := by
  conv_lhs => unfold escStrip
  rw [if_pos rfl]

lemma escStrip_cons (a : Char) (l : Str) (h : a ≠ '\\') : escStrip (a :: l) = a :: escStrip l := by
  cases l with
  | nil =>
    conv_lhs => unfold escStrip
    rw [if_neg h]
    rfl
  | cons b t =>
    conv_lhs => unfold escStrip
    rw [if_neg h]

/-- A successful stack scan exhibits a prefix whose closing braces
outnumber its opening braces by the starting depth plus one. -/
lemma scanStack_closes :
    ∀ (u : Str) (d : Nat) (c r : Str), scanStack d u = some (c, r) →
      ∃ n, n ≤ u.length ∧ countC '\x7d' (u.take n) = countC '\x7b' (u.take n) + d + 1 := by
  intro u
  induction u with
  | nil => intro d c r h; cases h
  | cons a rest ih =>
    intro d c r h
    unfold scanStack at h
    by_cases h2 : a = '\x7d'
    · rw [if_pos h2] at h
      cases d with
      | zero =>
        refine ⟨1, by simp only [List.length_cons]; omega, ?_⟩
        rw [show (a :: rest).take 1 = [a] from rfl, h2]
        decide
      | succ d' =>
        have h' : Option.map (fun p => (a :: p.1, p.2)) (scanStack d' rest) = some (c, r) := h
        cases hrec : scanStack d' rest with
        | none => rw [hrec] at h'; cases h'
        | some pr =>
          rcases pr with ⟨c', r'⟩
          obtain ⟨n', hn', hc'⟩ := ih d' c' r' hrec
          refine ⟨n' + 1, by simp only [List.length_cons]; omega, ?_⟩
          rw [show (a :: rest).take (n' + 1) = a :: rest.take n' from rfl, h2,
            countC_cons_self, countC_cons_ne '\x7b' '\x7d' _ (by decide)]
          omega
    · rw [if_neg h2] at h
      by_cases h3 : a = '\x7b'
      · rw [if_pos h3] at h
        have h' : Option.map (fun p => (a :: p.1, p.2)) (scanStack (d + 1) rest) = some (c, r) := h
        cases hrec : scanStack (d + 1) rest with
        | none => rw [hrec] at h'; cases h'
        | some pr =>
          rcases pr with ⟨c', r'⟩
          obtain ⟨n', hn', hc'⟩ := ih (d + 1) c' r' hrec
          refine ⟨n' + 1, by simp only [List.length_cons]; omega, ?_⟩
          rw [show (a :: rest).take (n' + 1) = a :: rest.take n' from rfl, h3,
            countC_cons_self, countC_cons_ne '\x7d' '\x7b' _ (by decide)]
          omega
      · rw [if_neg h3] at h
        have h' : Option.map (fun p => (a :: p.1, p.2)) (scanStack d rest) = some (c, r) := h
        cases hrec : scanStack d rest with
        | none => rw [hrec] at h'; cases h'
        | some pr =>
          rcases pr with ⟨c', r'⟩
          obtain ⟨n', hn', hc'⟩ := ih d c' r' hrec
          refine ⟨n' + 1, by simp only [List.length_cons]; omega, ?_⟩
          rw [show (a :: rest).take (n' + 1) = a :: rest.take n' from rfl,
            countC_cons_ne '\x7d' a _ h2, countC_cons_ne '\x7b' a _ h3]
          exact hc'

/-- The escape-skipping analogue of `scanStack_closes`: the braces are
counted on the escape-stripped prefix. -/
lemma scanEsc_closes :
    ∀ (f : Nat) (u : Str), u.length ≤ f →
      ∀ d c r, scanEsc d u = some (c, r) →
        ∃ n, n ≤ u.length ∧
          countC '\x7d' (escStrip (u.take n)) = countC '\x7b' (escStrip (u.take n)) + d + 1 := by
  intro f
  induction f with
  | zero =>
    intro u hu d c r h
    have : u = [] := List.eq_nil_of_length_eq_zero (Nat.le_zero.mp hu)
    subst this
    cases h
  | succ f ih =>
    intro u hu d c r h
    cases u with
    | nil => cases h
    | cons a rest =>
      unfold scanEsc at h
      by_cases h1 : a = '\\'
      · rw [if_pos h1] at h
        cases rest with
        | nil => cases h
        | cons e rest' =>
          have h' : Option.map (fun p => (a :: e :: p.1, p.2)) (scanEsc d rest') = some (c, r) := h
          cases hrec : scanEsc d rest' with
          | none => rw [hrec] at h'; cases h'
          | some pr =>
            rcases pr with ⟨c', r'⟩
            have hu' : rest'.length ≤ f := by simp only [List.length_cons] at hu; omega
            obtain ⟨n', hn', hc'⟩ := ih rest' hu' d c' r' hrec
            refine ⟨n' + 2, by simp only [List.length_cons]; omega, ?_⟩
            rw [show (a :: e :: rest').take (n' + 2) = a :: e :: rest'.take n' from rfl,
              h1, escStrip_esc]
            exact hc'
      · rw [if_neg h1] at h
        by_cases h2 : a = '\x7d'
        · rw [if_pos h2] at h
          cases d with
          | zero =>
            refine ⟨1, by simp only [List.length_cons]; omega, ?_⟩
            rw [show (a :: rest).take 1 = [a] from rfl, h2]
            decide
          | succ d' =>
            have h' : Option.map (fun p => (a :: p.1, p.2)) (scanEsc d' rest) = some (c, r) := h
            cases hrec : scanEsc d' rest with
            | none => rw [hrec] at h'; cases h'
            | some pr =>
              rcases pr with ⟨c', r'⟩
              have hu' : rest.length ≤ f := by simp only [List.length_cons] at hu; omega
              obtain ⟨n', hn', hc'⟩ := ih rest hu' d' c' r' hrec
              refine ⟨n' + 1, by simp only [List.length_cons]; omega, ?_⟩
              rw [show (a :: rest).take (n' + 1) = a :: rest.take n' from rfl,
                escStrip_cons a _ h1, h2, countC_cons_self,
                countC_cons_ne '\x7b' '\x7d' _ (by decide)]
              omega
        · rw [if_neg h2] at h
          by_cases h3 : a = '\x7b'
          · rw [if_pos h3] at h
            have h' : Option.map (fun p => (a :: p.1, p.2)) (scanEsc (d + 1) rest) = some (c, r) := h
            cases hrec : scanEsc (d + 1) rest with
            | none => rw [hrec] at h'; cases h'
            | some pr =>
              rcases pr with ⟨c', r'⟩
              have hu' : rest.length ≤ f := by simp only [List.length_cons] at hu; omega
              obtain ⟨n', hn', hc'⟩ := ih rest hu' (d + 1) c' r' hrec
              refine ⟨n' + 1, by simp only [List.length_cons]; omega, ?_⟩
              rw [show (a :: rest).take (n' + 1) = a :: rest.take n' from rfl,
                escStrip_cons a _ h1, h3, countC_cons_self,
                countC_cons_ne '\x7d' '\x7b' _ (by decide)]
              omega
          · rw [if_neg h3] at h
            have h' : Option.map (fun p => (a :: p.1, p.2)) (scanEsc d rest) = some (c, r) := h
            cases hrec : scanEsc d rest with
            | none => rw [hrec] at h'; cases h'
            | some pr =>
              rcases pr with ⟨c', r'⟩
              have hu' : rest.length ≤ f := by simp only [List.length_cons] at hu; omega
              obtain ⟨n', hn', hc'⟩ := ih rest hu' d c' r' hrec
              refine ⟨n' + 1, by simp only [List.length_cons]; omega, ?_⟩
              rw [show (a :: rest).take (n' + 1) = a :: rest.take n' from rfl,
                escStrip_cons a _ h1,
                countC_cons_ne '\x7d' a _ h2, countC_cons_ne '\x7b' a _ h3]
              exact hc'

/-- C8: both balanced-brace scanners are total; they return `None` when the
command (followed by an optionally whitespace-separated opening brace) does
not occur, and `None` when the opening brace of the occurrence they scan is
never balanced by a matching closing brace (braces counted plainly, and on
the escape-stripped stream for `extract_braced_content`); any returned
string sits strictly inside a brace pair of the input. -/
theorem balanced_extractors_safe (text cmd : Str) :
    ((¬ ∃ p q, text = p ++ (cmd ++ ['\x7b']) ++ q) → extract_braced_content text cmd = none) ∧
    (∀ i, findSub (cmd ++ ['\x7b']) text = some i →
      ¬ closesBraceEsc (text.drop (i + cmd.length + 1)) →
      extract_braced_content text cmd = none) ∧
    (∀ s, extract_braced_content text cmd = some s →
      ∃ p q, text = p ++ '\x7b' :: (s ++ '\x7d' :: q)) ∧
    ((¬ ∃ p w q, (∀ c ∈ w, isWs c = true) ∧ text = p ++ cmd ++ (w ++ '\x7b' :: q)) →
      extract_balanced_content text cmd = none) ∧
    (∀ i n a, searchM (mTokenWsBrace cmd) text = some (i, n, a) →
      ¬ closesBrace (text.drop (i + n)) → extract_balanced_content text cmd = none) ∧
    (∀ s, extract_balanced_content text cmd = some s →
      ∃ p q, text = p ++ '\x7b' :: (s ++ '\x7d' :: q)) := by
  refine ⟨?_, ?_, ?_, ?_, ?_, ?_⟩
  · intro hno
    unfold extract_braced_content
    cases hf : findSub (cmd ++ ['\x7b']) text with
    | none => rfl
    | some i =>
      exfalso
      obtain ⟨t, ht1, _⟩ := findSub_some _ text i hf
      refine hno ⟨text.take i, t, ?_⟩
      conv_lhs => rw [← List.take_append_drop i text]
      rw [ht1, ← List.append_assoc]
  · intro i hf hnb
    unfold extract_braced_content
    rw [hf]
    show Option.map (fun x => x.1) (scanEsc 0 (text.drop (i + cmd.length + 1))) = none
    cases hscan : scanEsc 0 (text.drop (i + cmd.length + 1)) with
    | none => rfl
    | some pr =>
      exfalso
      rcases pr with ⟨c, r⟩
      obtain ⟨n, hn, hc⟩ :=
        scanEsc_closes (text.drop (i + cmd.length + 1)).length _ le_rfl 0 c r hscan
      exact hnb ⟨n, hn, hc⟩
  · intro s hsome
    unfold extract_braced_content at hsome
    cases hf : findSub (cmd ++ ['\x7b']) text with
    | none => rw [hf] at hsome; cases hsome
    | some i =>
      rw [hf] at hsome
      have hsome' : Option.map (fun x => x.1) (scanEsc 0 (text.drop (i + cmd.length + 1)))
          = some s := hsome
      cases hscan : scanEsc 0 (text.drop (i + cmd.length + 1)) with
      | none => rw [hscan] at hsome'; cases hsome'
      | some pr =>
        rw [hscan] at hsome'
        rcases pr with ⟨c, r⟩
        have hcs : c = s := by simpa using hsome'
        obtain ⟨t, ht1, ht2⟩ := findSub_some _ text i hf
        have hdecomp := scanEsc_decomp (text.drop (i + cmd.length + 1)).length _ le_rfl 0 c r hscan
        have hdt : text.drop (i + cmd.length + 1) = t := by
          rw [show i + cmd.length + 1 = i + (cmd ++ ['\x7b']).length by simp; omega]
          exact ht2
        refine ⟨text.take i ++ cmd, r, ?_⟩
        conv_lhs => rw [← List.take_append_drop i text]
        rw [ht1, ← hdt, hdecomp, hcs]
        simp [List.append_assoc]
  · intro hno
    unfold extract_balanced_content
    by_cases he : text.isEmpty
    · simp [he]
    · simp only [he, Bool.false_eq_true, if_false]
      cases hsm : searchM (mTokenWsBrace cmd) text with
      | none => rfl
      | some tr =>
        exfalso
        rcases tr with ⟨i, n, a⟩
        have hmt := searchM_some _ text i n a hsm
        obtain ⟨w, t, hw, hdec, _⟩ := mTokenWsBrace_some cmd (text.drop i) n a hmt
        refine hno ⟨text.take i, w, t, hw, ?_⟩
        conv_lhs => rw [← List.take_append_drop i text]
        rw [hdec, ← List.append_assoc]
  · intro i n a hsm hnb
    unfold extract_balanced_content
    by_cases he : text.isEmpty
    · rw [if_pos he]
    · rw [if_neg he]
      rw [hsm]
      show Option.map (fun x => x.1) (scanStack 0 (text.drop (i + n))) = none
      cases hscan : scanStack 0 (text.drop (i + n)) with
      | none => rfl
      | some pr =>
        exfalso
        rcases pr with ⟨c, r⟩
        obtain ⟨m, hm, hc⟩ := scanStack_closes (text.drop (i + n)) 0 c r hscan
        exact hnb ⟨m, hm, hc⟩
  · intro s hsome
    unfold extract_balanced_content at hsome
    by_cases he : text.isEmpty
    · rw [if_pos he] at hsome; cases hsome
    · rw [if_neg he] at hsome
      cases hsm : searchM (mTokenWsBrace cmd) text with
      | none => rw [hsm] at hsome; cases hsome
      | some tr =>
        rw [hsm] at hsome
        rcases tr with ⟨i, n, a⟩
        have hsome' : Option.map (fun x => x.1) (scanStack 0 (text.drop (i + n)))
            = some s := hsome
        cases hscan : scanStack 0 (text.drop (i + n)) with
        | none => rw [hscan] at hsome'; cases hsome'
        | some pr =>
          rw [hscan] at hsome'
          rcases pr with ⟨c, r⟩
          have hcs : c = s := by simpa using hsome'
          have hmt := searchM_some _ text i n a hsm
          obtain ⟨w, t, hw, hdec, hdrop⟩ := mTokenWsBrace_some cmd (text.drop i) n a hmt
          have hdt : text.drop (i + n) = t := by
            rw [← List.drop_drop n i text]
            exact hdrop
          have hdecomp := scanStack_decomp (text.drop (i + n)) 0 c r hscan
          refine ⟨text.take i ++ (cmd ++ w), r, ?_⟩
          conv_lhs => rw [← List.take_append_drop i text]
          rw [hdec, show t = c ++ '\x7d' :: r by rw [← hdt, hdecomp], hcs]
          simp [List.append_assoc]

/-- Witness for C8 at a concrete extraction and a concrete unbalanced
input for each scanner. -/
theorem balanced_extractors_safe_witness :
    (extract_braced_content (SL "x\\a\x7bb\x7dy") (SL "\\a") = some (SL "b") ∧
      ∃ p q, SL "x\\a\x7bb\x7dy" = p ++ '\x7b' :: (SL "b" ++ '\x7d' :: q)) ∧
    extract_braced_content (SL "x\\a\x7bb") (SL "\\a") = none ∧
    extract_balanced_content (SL "\\a\x7bb") (SL "\\a") = none :=
  ⟨⟨rfl, (balanced_extractors_safe (SL "x\\a\x7bb\x7dy") (SL "\\a")).2.2.1 (SL "b") rfl⟩,
   (balanced_extractors_safe (SL "x\\a\x7bb") (SL "\\a")).2.1 1 (by decide) (by
      rintro ⟨n, hn, hc⟩
      rw [show ((SL "x\\a\x7bb").drop (1 + (SL "\\a").length + 1)).length = 1 from rfl] at hn
      interval_cases n
      · exact absurd hc (by decide)
      · exact absurd hc (by decide)),
   (balanced_extractors_safe (SL "\\a\x7bb") (SL "\\a")).2.2.2.2.1 0 3 () (by decide) (by
      rintro ⟨n, hn, hc⟩
      rw [show ((SL "\\a\x7bb").drop (0 + 3)).length = 1 from rfl] at hn
      interval_cases n
      · exact absurd hc (by decide)
      · exact absurd hc (by decide))⟩

/-!
Character-level facts about the `re.sub` scanner, for the cleanliness of
`clean_latex_text` output (C6).
-/

/-- No two adjacent whitespace characters. -/
def noTwoWs (a b : Char) : Prop := isWs a = false ∨ isWs b = false

/-- The cleanliness properties C6 claims of stored institution strings. -/
def isCleanStr (s : Str) : Prop :=
  (∀ c ∈ s, c ≠ '\\' ∧ c ≠ '\x7b' ∧ c ≠ '\x7d' ∧ c ≠ '$') ∧
  (∀ c, s.head? = some c → isWs c = false) ∧
  (∀ c, s.getLast? = some c → isWs c = false) ∧
  List.Chain' noTwoWs s

lemma isCleanStr_nil : isCleanStr [] := by
  refine ⟨?_, ?_, ?_, ?_⟩ <;> simp [List.Chain']

lemma subMF_establish (P : Char → Prop) (m : Str → Option (Nat × Str))
    (h1 : ∀ a s, m (a :: s) = none → P a)
    (h2 : ∀ s n rep, m s = some (n, rep) → (∀ c ∈ rep, P c) ∧ 1 ≤ n) :
    ∀ fuel s, s.length ≤ fuel → ∀ c ∈ subMF m fuel s, P c := by
  intro fuel
  induction fuel with
  | zero =>
    intro s hs c hc
    have : s = [] := List.eq_nil_of_length_eq_zero (Nat.le_zero.mp hs)
    subst this
    simp [subMF] at hc
  | succ fuel ih =>
    intro s hs c hc
    cases s with
    | nil => simp [subMF] at hc
    | cons a rest =>
      unfold subMF at hc
      cases hm : m (a :: rest) with
      | none =>
        rw [hm] at hc
        rcases List.mem_cons.mp hc with h | h
        · rw [h]; exact h1 a rest hm
        · exact ih rest (by simp only [List.length_cons] at hs; omega) c h
      | some p =>
        rw [hm] at hc
        rcases p with ⟨n, rep⟩
        obtain ⟨hrep, hn⟩ := h2 _ _ _ hm
        rcases List.mem_append.mp hc with h | h
        · exact hrep c h
        · refine ih _ ?_ c h
          rw [List.length_drop]
          simp only [List.length_cons] at hs ⊢
          omega

lemma subMF_preserve (P : Char → Prop) (m : Str → Option (Nat × Str))
    (h2 : ∀ s n rep, m s = some (n, rep) → (∀ c ∈ rep, P c) ∧ 1 ≤ n) :
    ∀ fuel s, s.length ≤ fuel → (∀ c ∈ s, P c) → ∀ c ∈ subMF m fuel s, P c := by
  intro fuel
  induction fuel with
  | zero =>
    intro s hs hall c hc
    have : s = [] := List.eq_nil_of_length_eq_zero (Nat.le_zero.mp hs)
    subst this
    simp [subMF] at hc
  | succ fuel ih =>
    intro s hs hall c hc
    cases s with
    | nil => simp [subMF] at hc
    | cons a rest =>
      unfold subMF at hc
      cases hm : m (a :: rest) with
      | none =>
        rw [hm] at hc
        rcases List.mem_cons.mp hc with h | h
        · rw [h]; exact hall a (List.mem_cons_self a rest)
        · exact ih rest (by simp only [List.length_cons] at hs; omega)
            (fun d hd => hall d (List.mem_cons_of_mem a hd)) c h
      | some p =>
        rw [hm] at hc
        rcases p with ⟨n, rep⟩
        obtain ⟨hrep, hn⟩ := h2 _ _ _ hm
        rcases List.mem_append.mp hc with h | h
        · exact hrep c h
        · refine ih _ ?_ (fun d hd => hall d (List.mem_of_mem_drop hd)) c h
          rw [List.length_drop]
          simp only [List.length_cons] at hs ⊢
          omega

lemma head_dropWhile_false (p : Char → Bool) :
    ∀ (l : Str) b u, l.dropWhile p = b :: u → p b = false := by
  intro l
  induction l with
  | nil => intro b u h; cases h
  | cons a rest ih =>
    intro b u h
    rw [List.dropWhile_cons] at h
    by_cases ha : p a
    · rw [if_pos (by simpa using ha)] at h
      exact ih b u h
    · rw [if_neg (by simpa using ha)] at h
      injection h with h1 _
      rw [← h1]
      simpa using ha

lemma collapse_chain :
    ∀ fuel s, s.length ≤ fuel →
      List.Chain' noTwoWs (subMF (mWsRun (SL " ")) fuel s) ∧
      (∀ a t, s = a :: t → isWs a = false →
        ∃ u, subMF (mWsRun (SL " ")) fuel s = a :: u) := by
  intro fuel
  induction fuel with
  | zero =>
    intro s hs
    have : s = [] := List.eq_nil_of_length_eq_zero (Nat.le_zero.mp hs)
    subst this
    exact ⟨by simp [subMF, List.Chain'], fun a t h => by cases h⟩
  | succ fuel ih =>
    intro s hs
    cases s with
    | nil => exact ⟨by simp [subMF, List.Chain'], fun a t h => by cases h⟩
    | cons a rest =>
      by_cases ha : isWs a
      · have hm : mWsRun (SL " ") (a :: rest) =
            some (((a :: rest).takeWhile isWs).length, SL " ") := by
          have h0 : mWsRun (SL " ") (a :: rest) =
              if isWs a then some (((a :: rest).takeWhile isWs).length, SL " ")
              else none := rfl
          rw [h0, if_pos ha]
        have hres : subMF (mWsRun (SL " ")) (fuel + 1) (a :: rest) =
            ' ' :: subMF (mWsRun (SL " ")) fuel
              ((a :: rest).drop ((a :: rest).takeWhile isWs).length) := by
          have h0 : subMF (mWsRun (SL " ")) (fuel + 1) (a :: rest) =
              match mWsRun (SL " ") (a :: rest) with
              | some (n, rep) => rep ++ subMF (mWsRun (SL " ")) fuel ((a :: rest).drop n)
              | none => a :: subMF (mWsRun (SL " ")) fuel rest := rfl
          rw [h0, hm]
          rfl
        have hdw : (a :: rest).drop ((a :: rest).takeWhile isWs).length =
            (a :: rest).dropWhile isWs := drop_length_takeWhile isWs (a :: rest)
        have hlen : ((a :: rest).dropWhile isWs).length ≤ fuel := by
          have h1 : ((a :: rest).takeWhile isWs).length ≥ 1 := by
            rw [List.takeWhile_cons, if_pos (by simpa using ha)]
            simp
          have h2 := List.length_drop ((a :: rest).takeWhile isWs).length (a :: rest)
          rw [hdw] at h2
          simp only [List.length_cons] at hs h2
          omega
        refine ⟨?_, fun b t hb hnb => by
          injection hb with hb1 _
          rw [hb1] at ha
          exact absurd ha (by simp [hnb])⟩
        rw [hres, hdw]
        cases hsp : (a :: rest).dropWhile isWs with
        | nil =>
          cases fuel <;> simp [subMF]
        | cons b u =>
          have hbws : isWs b = false := head_dropWhile_false isWs (a :: rest) b u hsp
          obtain ⟨ch, hhd⟩ := ih ((a :: rest).dropWhile isWs) hlen
          obtain ⟨u', hu'⟩ := hhd b u hsp hbws
          rw [hsp] at hu' ch
          rw [hu']
          rw [hu'] at ch
          exact (List.chain'_cons'.mpr ⟨fun y hy => by
            simp only [List.head?_cons, Option.mem_def, Option.some.injEq] at hy
            exact Or.inr (hy ▸ hbws), ch⟩)
      · have hm : mWsRun (SL " ") (a :: rest) = none := by
          have h0 : mWsRun (SL " ") (a :: rest) =
              if isWs a then some (((a :: rest).takeWhile isWs).length, SL " ")
              else none := rfl
          rw [h0, if_neg ha]
        have hres : subMF (mWsRun (SL " ")) (fuel + 1) (a :: rest) =
            a :: subMF (mWsRun (SL " ")) fuel rest := by
          have h0 : subMF (mWsRun (SL " ")) (fuel + 1) (a :: rest) =
              match mWsRun (SL " ") (a :: rest) with
              | some (n, rep) => rep ++ subMF (mWsRun (SL " ")) fuel ((a :: rest).drop n)
              | none => a :: subMF (mWsRun (SL " ")) fuel rest := rfl
          rw [h0, hm]
        have hlen : rest.length ≤ fuel := by
          simp only [List.length_cons] at hs
          omega
        obtain ⟨ch, _⟩ := ih rest hlen
        refine ⟨?_, fun b t hb _ => ⟨subMF (mWsRun (SL " ")) fuel rest, by
          injection hb with hb1 hb2
          rw [hres, hb1]⟩⟩
        rw [hres]
        exact List.chain'_cons'.mpr ⟨fun y _ => Or.inl (by simpa using ha), ch⟩

lemma mem_dropWhile (p : Char → Bool) :
    ∀ (l : Str) (c : Char), c ∈ l.dropWhile p → c ∈ l := by
  intro l
  induction l with
  | nil => intro c hc; simpa using hc
  | cons a t ih =>
    intro c hc
    rw [List.dropWhile_cons] at hc
    by_cases hp : p a
    · rw [if_pos hp] at hc
      exact List.mem_cons_of_mem a (ih c hc)
    · rw [if_neg hp] at hc
      exact hc

lemma getLast?_dropWhile_some (p : Char → Bool) :
    ∀ (l : Str) (c : Char), (l.dropWhile p).getLast? = some c → l.getLast? = some c := by
  intro l
  induction l with
  | nil => intro c hc; simpa using hc
  | cons a t ih =>
    intro c hc
    rw [List.dropWhile_cons] at hc
    by_cases hp : p a
    · rw [if_pos hp] at hc
      have ht := ih c hc
      cases t with
      | nil => simp at ht
      | cons b u => rw [List.getLast?_cons_cons]; exact ht
    · rw [if_neg hp] at hc
      exact hc

lemma chain'_dropWhile (R : Char → Char → Prop) (p : Char → Bool) :
    ∀ l : Str, List.Chain' R l → List.Chain' R (l.dropWhile p) := by
  intro l
  induction l with
  | nil => intro h; simpa using h
  | cons a t ih =>
    intro h
    rw [List.dropWhile_cons]
    by_cases hp : p a
    · rw [if_pos hp]
      exact ih (List.chain'_cons'.mp h).2
    · rw [if_neg hp]; exact h

lemma chain'_noTwoWs_reverse (l : Str) (h : List.Chain' noTwoWs l) :
    List.Chain' noTwoWs l.reverse := by
  rw [List.chain'_reverse]
  exact h.imp (fun a b hab => hab.symm)

/-- Effect of a two-sided `dropWhile` trim on the C6 cleanliness facts. -/
lemma trim2_clean (q : Char → Bool) (hq : ∀ c, q c = false → isWs c = false) :
    ∀ l : Str, List.Chain' noTwoWs l →
      (∀ c, (((l.dropWhile q).reverse.dropWhile q).reverse).head? = some c → isWs c = false) ∧
      (∀ c, (((l.dropWhile q).reverse.dropWhile q).reverse).getLast? = some c → isWs c = false) ∧
      List.Chain' noTwoWs (((l.dropWhile q).reverse.dropWhile q).reverse) ∧
      (∀ c ∈ ((l.dropWhile q).reverse.dropWhile q).reverse, c ∈ l) := by
  intro l hch
  refine ⟨?_, ?_, ?_, ?_⟩
  · intro c hc
    rw [List.head?_reverse] at hc
    have h1 : (l.dropWhile q).reverse.getLast? = some c := getLast?_dropWhile_some q _ c hc
    rw [List.getLast?_reverse] at h1
    cases hd : l.dropWhile q with
    | nil => rw [hd] at h1; simp at h1
    | cons b u =>
      rw [hd] at h1
      simp only [List.head?_cons, Option.some.injEq] at h1
      have hb := head_dropWhile_false q l b u hd
      exact hq c (h1 ▸ hb)
  · intro c hc
    rw [List.getLast?_reverse] at hc
    cases hd : (l.dropWhile q).reverse.dropWhile q with
    | nil => rw [hd] at hc; simp at hc
    | cons b u =>
      rw [hd] at hc
      simp only [List.head?_cons, Option.some.injEq] at hc
      have hb := head_dropWhile_false q (l.dropWhile q).reverse b u hd
      exact hq c (hc ▸ hb)
  · exact chain'_noTwoWs_reverse _
      (chain'_dropWhile noTwoWs q _
        (chain'_noTwoWs_reverse _ (chain'_dropWhile noTwoWs q l hch)))
  · intro c hc
    rw [List.mem_reverse] at hc
    have h1 := mem_dropWhile q _ c hc
    rw [List.mem_reverse] at h1
    exact mem_dropWhile q l c h1

lemma mLit_some_facts (pat rep s : Str) (n : Nat) (r : Str)
    (h : mLit pat rep s = some (n, r)) : r = rep ∧ n = pat.length := by
  unfold mLit at h
  split at h
  · simp only [Option.some.injEq, Prod.mk.injEq] at h
    exact ⟨h.2.symm, h.1.symm⟩
  · exact Option.noConfusion h

lemma mLit_single_none (x : Char) (rep : Str) (a : Char) (s : Str)
    (h : mLit [x] rep (a :: s) = none) : a ≠ x := by
  intro hax
  subst hax
  simp [mLit, startsW] at h

lemma mCharClass_none (p : Char → Bool) (rep : Str) (a : Char) (s : Str)
    (h : mCharClass p rep (a :: s) = none) : p a = false := by
  have h0 : mCharClass p rep (a :: s) = if p a then some (1, rep) else none := rfl
  rw [h0] at h
  by_cases hp : p a
  · rw [if_pos hp] at h; exact Option.noConfusion h
  · simpa using hp

lemma mCharClass_some (p : Char → Bool) (rep : Str) (s : Str) (n : Nat) (r : Str)
    (h : mCharClass p rep s = some (n, r)) : r = rep ∧ n = 1 := by
  cases s with
  | nil => exact Option.noConfusion h
  | cons a t =>
    have h0 : mCharClass p rep (a :: t) = if p a then some (1, rep) else none := rfl
    rw [h0] at h
    by_cases hp : p a
    · rw [if_pos hp] at h
      simp only [Option.some.injEq, Prod.mk.injEq] at h
      exact ⟨h.2.symm, h.1.symm⟩
    · rw [if_neg hp] at h; exact Option.noConfusion h

lemma mWsRun_some (rep : Str) (s : Str) (n : Nat) (r : Str)
    (h : mWsRun rep s = some (n, r)) : r = rep ∧ 1 ≤ n := by
  cases s with
  | nil => exact Option.noConfusion h
  | cons a t =>
    have h0 : mWsRun rep (a :: t) =
        if isWs a then some (((a :: t).takeWhile isWs).length, rep) else none := rfl
    rw [h0] at h
    by_cases hw : isWs a
    · rw [if_pos hw] at h
      simp only [Option.some.injEq, Prod.mk.injEq] at h
      refine ⟨h.2.symm, ?_⟩
      rw [← h.1]
      rw [List.takeWhile_cons, if_pos (by simpa using hw)]
      simp
    · rw [if_neg hw] at h; exact Option.noConfusion h

lemma subM_establish (P : Char → Prop) (m : Str → Option (Nat × Str))
    (h1 : ∀ a s, m (a :: s) = none → P a)
    (h2 : ∀ s n rep, m s = some (n, rep) → (∀ c ∈ rep, P c) ∧ 1 ≤ n) :
    ∀ s, ∀ c ∈ subM m s, P c := by
  intro s
  exact subMF_establish P m h1 h2 (s.length + 1) s (Nat.le_succ _)

lemma subM_preserve (P : Char → Prop) (m : Str → Option (Nat × Str))
    (h2 : ∀ s n rep, m s = some (n, rep) → (∀ c ∈ rep, P c) ∧ 1 ≤ n) :
    ∀ s, (∀ c ∈ s, P c) → ∀ c ∈ subM m s, P c := by
  intro s hall
  exact subMF_preserve P m h2 (s.length + 1) s (Nat.le_succ _) hall

/-- The final stages of `clean_latex_text` leave a clean string whatever
precedes them. -/
lemma pipeline_clean (s : Str) :
    isCleanStr (trimEdge (stripWsL (collapseWs (replaceAllL (SL "~") (SL " ")
      (replaceAllL (SL "$") [] (replaceAllL (SL "\\") (SL " ")
      (replaceAllL (SL "\\\\") (SL ", ")
      (subM (mCharClass (fun c => c = '\x7b' || c = '\x7d') (SL " ")) s)))))))) := by
  have hLitRep : ∀ (pat rep : Str) (P : Char → Prop), pat ≠ [] → (∀ c ∈ rep, P c) →
      ∀ u n r, mLit pat rep u = some (n, r) → (∀ c ∈ r, P c) ∧ 1 ≤ n := by
    intro pat rep P hpat hrep u n r hm
    obtain ⟨h1, h2⟩ := mLit_some_facts pat rep u n r hm
    subst h1
    refine ⟨hrep, ?_⟩
    rw [h2]
    cases pat with
    | nil => exact absurd rfl hpat
    | cons a t => simp
  set t8 := subM (mCharClass (fun c => c = '\x7b' || c = '\x7d') (SL " ")) s with ht8
  set t9 := replaceAllL (SL "\\\\") (SL ", ") t8 with ht9
  set t10 := replaceAllL (SL "\\") (SL " ") t9 with ht10
  set t11 := replaceAllL (SL "$") [] t10 with ht11
  set t12 := replaceAllL (SL "~") (SL " ") t11 with ht12
  set t13 := collapseWs t12 with ht13
  have h8 : ∀ c ∈ t8, c ≠ '\x7b' ∧ c ≠ '\x7d' := by
    rw [ht8]
    refine subM_establish _ _ ?_ ?_ s
    · intro a t hm
      have hp := mCharClass_none _ _ a t hm
      simp only [Bool.or_eq_false_iff, decide_eq_false_iff_not] at hp
      exact hp
    · intro t n rep hm
      obtain ⟨hr, hn⟩ := mCharClass_some _ _ _ _ _ hm
      subst hr
      exact ⟨by decide, by omega⟩
  have h9 : ∀ c ∈ t9, c ≠ '\x7b' ∧ c ≠ '\x7d' := by
    rw [ht9]
    exact subM_preserve _ _
      (fun u n r => hLitRep _ _ _ (by decide) (by decide) u n r) t8 h8
  have h10a : ∀ c ∈ t10, c ≠ '\\' := by
    rw [ht10]
    refine subM_establish _ _ ?_
      (fun u n r => hLitRep _ _ _ (by decide) (by decide) u n r) t9
    intro a t hm
    exact mLit_single_none '\\' (SL " ") a t hm
  have h10b : ∀ c ∈ t10, c ≠ '\x7b' ∧ c ≠ '\x7d' := by
    rw [ht10]
    exact subM_preserve _ _
      (fun u n r => hLitRep _ _ _ (by decide) (by decide) u n r) t9 h9
  have h11a : ∀ c ∈ t11, c ≠ '$' := by
    rw [ht11]
    refine subM_establish _ _ ?_
      (fun u n r => hLitRep _ _ _ (by decide) (by decide) u n r) t10
    intro a t hm
    exact mLit_single_none '$' [] a t hm
  have h11b : ∀ c ∈ t11, c ≠ '\\' := by
    rw [ht11]
    exact subM_preserve _ _
      (fun u n r => hLitRep _ _ _ (by decide) (by decide) u n r) t10 h10a
  have h11c : ∀ c ∈ t11, c ≠ '\x7b' ∧ c ≠ '\x7d' := by
    rw [ht11]
    exact subM_preserve _ _
      (fun u n r => hLitRep _ _ _ (by decide) (by decide) u n r) t10 h10b
  have h11 : ∀ c ∈ t11, c ≠ '\\' ∧ c ≠ '\x7b' ∧ c ≠ '\x7d' ∧ c ≠ '$' :=
    fun c hc => ⟨h11b c hc, (h11c c hc).1, (h11c c hc).2, h11a c hc⟩
  have h12 : ∀ c ∈ t12, c ≠ '\\' ∧ c ≠ '\x7b' ∧ c ≠ '\x7d' ∧ c ≠ '$' := by
    rw [ht12]
    exact subM_preserve _ _
      (fun u n r => hLitRep _ _ _ (by decide) (by decide) u n r) t11 h11
  have h13chars : ∀ c ∈ t13, c ≠ '\\' ∧ c ≠ '\x7b' ∧ c ≠ '\x7d' ∧ c ≠ '$' := by
    rw [ht13]
    refine subM_preserve _ _ ?_ t12 h12
    intro u n r hm
    obtain ⟨h1, h2⟩ := mWsRun_some _ _ _ _ hm
    subst h1
    exact ⟨by decide, h2⟩
  have h13chain : List.Chain' noTwoWs t13 := by
    rw [ht13]
    exact (collapse_chain (t12.length + 1) t12 (Nat.le_succ _)).1
  obtain ⟨hsh, hsl, hsc, hsm⟩ := trim2_clean isWs (fun c h => h) t13 h13chain
  have hEdge : ∀ c, isEdgeC c = false → isWs c = false := by
    intro c h
    unfold isEdgeC at h
    simp only [Bool.or_eq_false_iff, decide_eq_false_iff_not] at h
    exact h.1.1.1
  obtain ⟨hth, htl, htc, htm⟩ := trim2_clean isEdgeC hEdge (stripWsL t13) hsc
  refine ⟨?_, ?_, ?_, ?_⟩
  · intro c hc
    exact h13chars c (hsm c (htm c hc))
  · exact hth
  · exact htl
  · exact htc

/-- The output of `clean_latex_text` is always a clean string. -/
lemma clean_latex_text_clean (t : Str) : isCleanStr (clean_latex_text t) := by
  by_cases ht : t.isEmpty
  · have h : clean_latex_text t = [] := by
      unfold clean_latex_text
      rw [if_pos ht]
    rw [h]
    exact isCleanStr_nil
  · have h : clean_latex_text t =
        trimEdge (stripWsL (collapseWs (replaceAllL (SL "~") (SL " ")
          (replaceAllL (SL "$") [] (replaceAllL (SL "\\") (SL " ")
          (replaceAllL (SL "\\\\") (SL ", ")
          (subM (mCharClass (fun c => c = '\x7b' || c = '\x7d') (SL " "))
            (subM (mCmdBare (SL " ")) (cleanLoop 4
              (subM (mCmdBraced (SL "corref")) (subM (mCmdBraced (SL "vspace"))
                (replaceAllL (SL "\\fnmsep") [] (subM (mCmdBraced (SL "thanks"))
                  (subM (mCmdBraced (SL "email")) t)))))))))))))) := by
      unfold clean_latex_text
      rw [if_neg ht]
    rw [h]
    exact pipeline_clean _

lemma dinsert_mem {α : Type} (k : Str) (v : α) :
    ∀ (lm : List (Str × α)) (kv : Str × α), kv ∈ dinsert k v lm → kv = (k, v) ∨ kv ∈ lm := by
  intro lm
  induction lm with
  | nil =>
    intro kv h
    simp [dinsert] at h
    exact Or.inl h
  | cons p rest ih =>
    intro kv h
    rcases p with ⟨k', v'⟩
    unfold dinsert at h
    by_cases hk : k' = k
    · rw [if_pos hk] at h
      rcases List.mem_cons.mp h with h | h
      · exact Or.inl h
      · exact Or.inr (List.mem_cons_of_mem _ h)
    · rw [if_neg hk] at h
      rcases List.mem_cons.mp h with h | h
      · exact Or.inr (h ▸ List.mem_cons_self _ _)
      · rcases ih kv h with h | h
        · exact Or.inl h
        · exact Or.inr (List.mem_cons_of_mem _ h)

/-- Every value of a label map is an output of `clean_latex_text`. -/
def fromClean (lm : LMap) : Prop := ∀ kv ∈ lm, ∃ t, kv.2 = clean_latex_text t

lemma fromClean_nil : fromClean [] := fun kv hkv => absurd hkv (List.not_mem_nil kv)

lemma dinsert_fromClean (k t : Str) (lm : LMap) (h : fromClean lm) :
    fromClean (dinsert k (clean_latex_text t) lm) := by
  intro kv hkv
  rcases dinsert_mem k (clean_latex_text t) lm kv hkv with h1 | h1
  · exact ⟨t, by rw [h1]⟩
  · exact h kv h1

lemma parboxLabelFold_fromClean :
    ∀ (lines : List Str) (lm : LMap), fromClean lm → fromClean (parboxLabelFold lines lm) := by
  intro lines
  induction lines with
  | nil => intro lm h; exact h
  | cons line rest ih =>
    intro lm h
    simp only [parboxLabelFold]
    repeat' split
    all_goals first
    | exact ih lm h
    | exact ih _ (dinsert_fromClean _ _ lm h)

lemma robustBlockFold_fromClean :
    ∀ (blocks : List Str) (lm : LMap), fromClean lm → fromClean (robustBlockFold blocks lm) := by
  intro blocks
  induction blocks with
  | nil => intro lm h; exact h
  | cons b rest ih =>
    intro lm h
    simp only [robustBlockFold]
    repeat' split
    all_goals first
    | exact ih lm h
    | exact ih _ (dinsert_fromClean _ _ lm h)

lemma altaffilLabelFold_fromClean (sec : Str) :
    ∀ (idxs : List Nat) (lm : LMap), fromClean lm → fromClean (altaffilLabelFold sec idxs lm) := by
  intro idxs
  induction idxs with
  | nil => intro lm h; exact h
  | cons bs rest ih =>
    intro lm h
    simp only [altaffilLabelFold]
    repeat' split
    all_goals first
    | exact ih lm h
    | exact ih _ (dinsert_fromClean _ _ lm h)

lemma elsarticleLabelFold_fromClean (sec : Str) :
    ∀ (ms : List (Nat × Nat × Str)) (lm : LMap),
      fromClean lm → fromClean (elsarticleLabelFold sec ms lm) := by
  intro ms
  induction ms with
  | nil => intro lm h; exact h
  | cons p rest ih =>
    intro lm h
    rcases p with ⟨i, n, g1⟩
    simp only [elsarticleLabelFold]
    repeat' split
    all_goals first
    | exact ih lm h
    | exact ih _ (dinsert_fromClean _ _ lm h)

lemma robustTagLoopF_fromClean (tag : Str) :
    ∀ (fuel : Nat) (s : Str) (lm : LMap),
      fromClean lm → fromClean (robustTagLoopF tag fuel s lm) := by
  intro fuel
  induction fuel with
  | zero => intro s lm h; exact h
  | succ fuel ih =>
    intro s lm h
    simp only [robustTagLoopF]
    split
    · exact h
    · apply ih
      split
      · split
        · exact h
        · exact robustBlockFold_fromClean _ lm h
      · exact h

lemma parbox_label_map_fromClean (sec : Str) : fromClean (parbox_label_map sec) := by
  unfold parbox_label_map
  repeat' split
  all_goals first
  | exact parboxLabelFold_fromClean _ [] fromClean_nil
  | exact fromClean_nil

lemma altaffil_label_map_fromClean (sec : Str) : fromClean (altaffil_label_map sec) :=
  altaffilLabelFold_fromClean sec _ [] fromClean_nil

lemma elsarticle_label_map_fromClean (sec : Str) : fromClean (elsarticle_label_map sec) :=
  elsarticleLabelFold_fromClean sec _ [] fromClean_nil

lemma robust_label_map_fromClean (sec : Str) : fromClean (robust_label_map sec) :=
  robustTagLoopF_fromClean _ _ sec _
    (robustTagLoopF_fromClean _ _ sec _ fromClean_nil)

/-- C6: every institution string stored as a value in one of the four
per-paper affiliation label maps of `finding_author_rem_8.py` is an output
of `clean_latex_text`, and therefore contains no backslash, brace, or
dollar character, has no whitespace at either end, and has no run of two
or more consecutive whitespace characters. -/
theorem label_map_values_clean (sec : Str) (kv : Str × Str)
    (h : kv ∈ parbox_label_map sec ∨ kv ∈ altaffil_label_map sec ∨
         kv ∈ elsarticle_label_map sec ∨ kv ∈ robust_label_map sec) :
    (∃ t, kv.2 = clean_latex_text t) ∧ isCleanStr kv.2 := by
  have hx : ∃ t, kv.2 = clean_latex_text t := by
    rcases h with h | h | h | h
    · exact parbox_label_map_fromClean sec kv h
    · exact altaffil_label_map_fromClean sec kv h
    · exact elsarticle_label_map_fromClean sec kv h
    · exact robust_label_map_fromClean sec kv h
  obtain ⟨t, ht⟩ := hx
  exact ⟨⟨t, ht⟩, ht ▸ clean_latex_text_clean t⟩

theorem label_map_values_clean_witness :
    (∃ t, (SL "1", SL "U").2 = clean_latex_text t) ∧ isCleanStr (SL "1", SL "U").2 :=
  label_map_values_clean (SL "\\affiliation\x7bU\x7d") (SL "1", SL "U")
    (Or.inr (Or.inr (Or.inr (by decide))))

lemma isEmpty_false_ne_nil {α : Type} {l : List α} (h : ¬(l.isEmpty = true)) : l ≠ [] := by
  intro he
  subst he
  exact h rfl

lemma bnot_isEmpty_ne_nil {α : Type} {l : List α} (h : (!l.isEmpty) = true) : l ≠ [] := by
  intro he
  subst he
  simp at h

lemma dvalues_ne_nil_of_length_one (lm : LMap) (h : lm.length = 1) : dvalues lm ≠ [] := by
  cases lm with
  | nil => simp at h
  | cons p rest => simp [dvalues]

/-- Every entry of the author map has a non-empty key and a non-empty list. -/
def goodAMap (m : AMap) : Prop := ∀ kv ∈ m, kv.1 ≠ [] ∧ kv.2 ≠ []

lemma goodAMap_nil : goodAMap [] := fun kv hkv => absurd hkv (List.not_mem_nil kv)

lemma dinsert_goodAMap (k : Str) (v : List Str) (m : AMap) (hk : k ≠ []) (hv : v ≠ [])
    (h : goodAMap m) : goodAMap (dinsert k v m) := by
  intro kv hkv
  rcases dinsert_mem k v m kv hkv with h1 | h1
  · rw [h1]; exact ⟨hk, hv⟩
  · exact h kv h1

lemma parboxAuthorFold_good (lm : LMap) :
    ∀ (raws : List Str) (m : AMap), goodAMap m → goodAMap (parboxAuthorFold lm raws m) := by
  intro raws
  induction raws with
  | nil => intro m h; exact h
  | cons raw rest ih =>
    intro m h
    simp only [parboxAuthorFold]
    by_cases h1 : (stripWsL raw).isEmpty
    · rw [if_pos h1]; exact ih m h
    · rw [if_neg h1]
      by_cases h2 : (extract_name_from_author raw).isEmpty
      · rw [if_pos h2]; exact ih m h
      · rw [if_neg h2]
        by_cases h3 : (parboxIndices raw).isEmpty
        · rw [if_pos h3]; exact ih m h
        · rw [if_neg h3]
          by_cases h4 : ((parboxIndices raw).filterMap (fun i => dlookup i lm)).isEmpty
          · rw [if_pos h4]; exact ih m h
          · rw [if_neg h4]
            exact ih _ (dinsert_goodAMap _ _ m (isEmpty_false_ne_nil h2)
              (isEmpty_false_ne_nil h4) h)

lemma altaffilPerAuthor_good (lm : LMap) :
    ∀ (raws : List Str) (m : AMap), goodAMap m → goodAMap (altaffilPerAuthor lm raws m) := by
  intro raws
  induction raws with
  | nil => intro m h; exact h
  | cons raw rest ih =>
    intro m h
    simp only [altaffilPerAuthor]
    by_cases h2 : (extract_name_from_author raw).isEmpty
    · rw [if_pos h2]; exact ih m h
    · rw [if_neg h2]
      by_cases h4 : (!((altaffilIndices raw).filterMap (fun i => dlookup i lm)).isEmpty) = true
      · rw [if_pos h4]
        exact ih _ (dinsert_goodAMap _ _ m (isEmpty_false_ne_nil h2)
          (bnot_isEmpty_ne_nil h4) h)
      · rw [if_neg h4]
        by_cases h5 : (!lm.isEmpty && (altaffilIndices raw).isEmpty) = true
        · rw [if_pos h5]
          by_cases h6 : lm.length = 1
          · rw [if_pos h6]
            exact ih _ (dinsert_goodAMap _ _ m (isEmpty_false_ne_nil h2)
              (dvalues_ne_nil_of_length_one lm h6) h)
          · rw [if_neg h6]; exact ih m h
        · rw [if_neg h5]; exact ih m h

lemma altaffilAuthorFold_good (sec : Str) (lm : LMap) :
    ∀ (sts : List Nat) (m : AMap), goodAMap m → goodAMap (altaffilAuthorFold sec lm sts m) := by
  intro sts
  induction sts with
  | nil => intro m h; exact h
  | cons st rest ih =>
    intro m h
    simp only [altaffilAuthorFold]
    repeat' split
    all_goals first
    | exact ih m h
    | exact ih _ (altaffilPerAuthor_good lm _ m h)

lemma elsarticleAuthorFold_good (sec : Str) (lm : LMap) :
    ∀ (ms : List (Nat × Nat × Str)) (m : AMap),
      goodAMap m → goodAMap (elsarticleAuthorFold sec lm ms m) := by
  intro ms
  induction ms with
  | nil => intro m h; exact h
  | cons p rest ih =>
    intro m h
    rcases p with ⟨i, n, g1⟩
    simp only [elsarticleAuthorFold]
    by_cases h2 : (extractNameOpt (extract_balanced_content (sec.drop (i + n - 2)) [])).isEmpty
    · rw [if_pos h2]; exact ih m h
    · rw [if_neg h2]
      by_cases h4 : (!((((pySplitOn ',' g1).map stripWsL).filter
          (fun l => !l.isEmpty)).filterMap (fun l => dlookup l lm)).isEmpty) = true
      · rw [if_pos h4]
        exact ih _ (dinsert_goodAMap _ _ m (isEmpty_false_ne_nil h2)
          (bnot_isEmpty_ne_nil h4) h)
      · rw [if_neg h4]; exact ih m h

lemma robustPerAuthor_good (lm : LMap) :
    ∀ (raws : List Str) (m : AMap), goodAMap m → goodAMap (robustPerAuthor lm raws m) := by
  intro raws
  induction raws with
  | nil => intro m h; exact h
  | cons raw rest ih =>
    intro m h
    simp only [robustPerAuthor]
    by_cases h2 : (extract_name_from_author raw).isEmpty
    · rw [if_pos h2]; exact ih m h
    · rw [if_neg h2]
      by_cases h3 : (!(robustIndices raw).isEmpty) = true
      · rw [if_pos h3]
        by_cases h4 : (!((robustIndices raw).filterMap (fun i => dlookup i lm)).isEmpty) = true
        · rw [if_pos h4]
          exact ih _ (dinsert_goodAMap _ _ m (isEmpty_false_ne_nil h2)
            (bnot_isEmpty_ne_nil h4) h)
        · rw [if_neg h4]; exact ih m h
      · rw [if_neg h3]
        by_cases h5 : (!lm.isEmpty) = true
        · rw [if_pos h5]
          by_cases h6 : lm.length = 1
          · rw [if_pos h6]
            exact ih _ (dinsert_goodAMap _ _ m (isEmpty_false_ne_nil h2)
              (dvalues_ne_nil_of_length_one lm h6) h)
          · rw [if_neg h6]
            cases hl : dlookup (SL "1") lm with
            | some v =>
              exact ih _ (dinsert_goodAMap _ _ m (isEmpty_false_ne_nil h2)
                (List.cons_ne_nil v []) h)
            | none => exact ih m h
        · rw [if_neg h5]; exact ih m h

lemma robustAuthorLoopF_good (lm : LMap) :
    ∀ (fuel : Nat) (s : Str) (m : AMap), goodAMap m → goodAMap (robustAuthorLoopF lm fuel s m) := by
  intro fuel
  induction fuel with
  | zero => intro s m h; exact h
  | succ fuel ih =>
    intro s m h
    simp only [robustAuthorLoopF]
    split
    · exact h
    · apply ih
      split
      · split
        · exact h
        · exact robustPerAuthor_good lm _ m h
      · exact h

lemma parse_parbox_style_good (sec : Str) : goodAMap (parse_parbox_style sec) := by
  unfold parse_parbox_style
  repeat' split
  all_goals first
  | exact parboxAuthorFold_good _ _ [] goodAMap_nil
  | exact goodAMap_nil

lemma parse_altaffil_style_good (sec : Str) : goodAMap (parse_altaffil_style sec) :=
  altaffilAuthorFold_good sec _ _ [] goodAMap_nil

lemma parse_elsarticle_style_good (sec : Str) : goodAMap (parse_elsarticle_style sec) :=
  elsarticleAuthorFold_good sec _ _ [] goodAMap_nil

lemma parse_robust_mapping_style_good (sec : Str) : goodAMap (parse_robust_mapping_style sec) :=
  robustAuthorLoopF_good _ _ sec [] goodAMap_nil

lemma parse_latex_section_good (sec : Str) : goodAMap (parse_latex_section sec) := by
  simp only [parse_latex_section]
  repeat' split
  all_goals first
  | exact parse_parbox_style_good sec
  | exact parse_altaffil_style_good sec
  | exact parse_elsarticle_style_good sec
  | exact parse_robust_mapping_style_good sec
  | exact goodAMap_nil

/-- C10: every entry of the mapping returned by `parse_latex_section` has a
non-empty author-name string as its key and a non-empty list of affiliation
strings as its value. -/
theorem dispatcher_entries_nonempty (sec : Str) (kv : Str × List Str)
    (h : kv ∈ parse_latex_section sec) : kv.1 ≠ [] ∧ kv.2 ≠ [] :=
  parse_latex_section_good sec kv h

theorem dispatcher_entries_nonempty_witness :
    (SL "Ann Bee", [SL "Uni"]).1 ≠ [] ∧ (SL "Ann Bee", [SL "Uni"]).2 ≠ [] :=
  dispatcher_entries_nonempty (SL "\\affiliation\x7bUni\x7d \\author\x7bAnn Bee\x7d")
    (SL "Ann Bee", [SL "Uni"]) (by decide)

end ArXiver
